import Mathlib

/-!
Verification of the rust_parser structured-data extraction engine.

This file is a shallow embedding, in Lean 4, of the parts of the source
relevant to the claims under study:

* `src/rust_parser/src/extractors.rs` — the spec-engine Document Index
  builders (`extract_jsonld_objects` / `collect_typed_objects`,
  `extract_microdata`, `extract_opengraph`, `extract_meta_tags`), the
  JS-literal evaluator (`expr_to_json` and friends), and the spec engine
  (`extract_single`, `extract_all`, `navigate_json_path`).
* `src/rust_parser/src/extractors/microdata_extractor.rs` — the standalone
  microdata extractor (`extract_item`).
* `src/rust_parser/src/extractors/opengraph_extractor.rs` — the standalone
  OpenGraph extractor (`extract_opengraph` / `insert_value`).
* `src/rust_parser/src/robots.rs` — the robots cache
  (`check_blocking`, `check_cached`, `extract_crawl_delay`,
  `extract_sitemaps`) and `src/rust_parser/src/ffi.rs`
  (`check_robots_ffi_inner`).
* `src/rust_parser/src/sitemap.rs` — `parse_sitemap` and
  `fetch_sitemap_internal_ureq`.

Conventions of the embedding:
* Rust `HashMap`s are modelled as association lists; only per-key lookup
  and the per-key accumulated `Vec`s are observable in the claims, and
  those are preserved exactly.
* External library calls (serde_json string parsing, the swc JS parser,
  the scraper CSS-selector engine, `texting_robots::Robot`, f64 parsing
  by `str::parse`, the quick-xml tokenizer, HTTP fetches) are inputs of
  the embedding: the functions take the library's already-produced value
  (a parsed JSON value, a parsed statement list, an XML event stream) or
  an oracle function standing for the library call.
* Machine floating point numbers are modelled as rationals; every finite
  f64 is an exact rational, and no claim depends on float rounding or on
  the shortest-representation formatting of floats.
-/

set_option maxHeartbeats 1600000

/-- JSON values (`serde_json::Value`).  Numbers are split the way
`serde_json::Number` is observable in the source: `num` for integers
produced through `Number::from(i64)` and `numF` for other finite doubles
(`Number::from_f64`), modelled exactly as rationals. -/
inductive Json where
  | null
  | bool (b : Bool)
  | num (n : Int)
  | numF (q : Rat)
  | str (s : String)
  | arr (elems : List Json)
  | obj (fields : List (String × Json))

/-- Object field lookup, `serde_json::Value::get` with a string key:
returns the value of the first field with that key, and `none` on
non-objects. -/
def Json.getKey : Json → String → Option Json
  | .obj fields, k => lookupField fields k
  | _, _ => none
where
  lookupField : List (String × Json) → String → Option Json
    | [], _ => none
    | (k', v) :: rest, k => if k' = k then some v else lookupField rest k

/-- Array indexing, `serde_json::Value::get` with a `usize` key:
returns element `i` of an array, `none` on non-arrays. -/
def Json.getIdx : Json → Nat → Option Json
  | .arr elems, i => elems.get? i
  | _, _ => none

/-- `Value::as_array`. -/
def Json.asArr : Json → Option (List Json)
  | .arr elems => some elems
  | _ => none

/-- `Value::as_str`. -/
def Json.asStr : Json → Option String
  | .str s => some s
  | _ => none

/-- Association list lookup (Rust `HashMap::get` / `Map::get`; the maps
built by the source never hold duplicate keys, so first-match lookup is
exact). -/
def alistGet {α : Type} : List (String × α) → String → Option α
  | [], _ => none
  | (k', v) :: rest, k => if k' = k then some v else alistGet rest k

/-- `collected.entry(k).or_default().push(v)` on a `HashMap<String, Vec<_>>`:
append `v` to the entry of `k`, creating the entry when absent. -/
def updEntry (m : List (String × List Json)) (k : String) (v : Json) :
    List (String × List Json) :=
  match m with
  | [] => [(k, [v])]
  | (k', vs) :: rest =>
      if k' = k then (k', vs ++ [v]) :: rest
      else (k', vs) :: updEntry rest k v

/-- Strip a list prefix, character by character. -/
def charsDropPre : List Char → List Char → Option (List Char)
  | [], s => some s
  | _ :: _, [] => none
  | p :: ps, c :: cs => if p = c then charsDropPre ps cs else none

/-- Strip a string prefix (`str::strip_prefix`). -/
def dropPre (p s : String) : Option String :=
  (charsDropPre p.toList s.toList).map List.asString

/-- `str::trim` on a character list (kernel-reducible, unlike
`String.trim`). -/
def trimChars (cs : List Char) : List Char :=
  ((cs.dropWhile Char.isWhitespace).reverse.dropWhile Char.isWhitespace).reverse

/-- `str::trim`. -/
def strTrim (s : String) : String :=
  (trimChars s.toList).asString

/-- `str::to_lowercase` (ASCII lowering; no claim involves non-ASCII
case folding). -/
def lowerStr (s : String) : String :=
  (s.toList.map Char.toLower).asString

/-- Type-name normalisation of `collect_typed_objects`:
`t.strip_prefix("https://schema.org/").or_else(http).unwrap_or(&t)`. -/
def cleanTypeName (t : String) : String :=
  match dropPre "https://schema.org/" t with
  | some r => r
  | none =>
      match dropPre "http://schema.org/" t with
      | some r => r
      | none => t

/-- The `@type` value to list of type strings
(`extractors.rs`, `collect_typed_objects`, the `types` match). -/
def typeStrings : Json → List String
  | .str s => [s]
  | .arr elems => elems.filterMap Json.asStr
  | _ => []

/-- A value found by association-list lookup is smaller than the list,
used for termination of the `@graph` recursion. -/
theorem alistGet_sizeOf_lt {α : Type} [SizeOf α] (k : String) (v : α) :
    ∀ l : List (String × α), alistGet l k = some v → sizeOf v < sizeOf l := by
  intro l
  induction l with
  | nil => intro h; simp [alistGet] at h
  | cons p rest ih =>
    intro h
    obtain ⟨k', v'⟩ := p
    simp only [alistGet] at h
    split at h
    · injection h with h; subst h; simp; omega
    · have := ih h; simp; omega

mutual

/-- `collect_typed_objects` (extractors.rs): walk a parsed JSON-LD value,
pushing every object carrying `@type` onto the per-type list; `@graph`
arrays and plain arrays are recursed into. -/
def collectTyped (value : Json) (acc : List (String × List Json)) :
    List (String × List Json) :=
  match value with
  | .obj fields =>
      let acc1 :=
        match h : alistGet fields "@graph" with
        | some (.arr graph) => collectTypedList graph acc
        | _ => acc
      match alistGet fields "@type" with
      | some typeVal =>
          (typeStrings typeVal).foldl
            (fun m t => updEntry m (cleanTypeName t) (.obj fields)) acc1
      | none => acc1
  | .arr elems => collectTypedList elems acc
  | _ => acc
termination_by sizeOf value
decreasing_by
  · have := alistGet_sizeOf_lt "@graph" (Json.arr graph) fields h
    simp at this ⊢
    omega
  · simp

/-- Recursion of `collect_typed_objects` over an array of JSON values. -/
def collectTypedList (values : List Json) (acc : List (String × List Json)) :
    List (String × List Json) :=
  match values with
  | [] => acc
  | v :: rest => collectTypedList rest (collectTyped v acc)
termination_by sizeOf values
decreasing_by
  all_goals simp
  all_goals omega

end

/-- `extract_jsonld_objects` (extractors.rs).  The scraper selection of
`script[type="application/ld+json"]` elements and the serde parse of each
body are library work; the input is the list of parse results in document
order (`none` = the block failed to parse and is ignored). -/
def extract_jsonld_objects (blocks : List (Option Json)) :
    List (String × Json) :=
  let collected :=
    blocks.foldl
      (fun acc block =>
        match block with
        | some json => collectTyped json acc
        | none => acc)
      []
  collected.map (fun (k, v) => (k, Json.arr v))

/-- Sanity: the test document of `test_jsonld_extraction` yields a
`Product` entry. -/
example :
    alistGet
      (extract_jsonld_objects
        [some (.obj [("@context", .str "https://schema.org"),
                     ("@type", .str "Product"),
                     ("name", .str "Test Product")])])
      "Product" =
    some (.arr [.obj [("@context", .str "https://schema.org"),
                      ("@type", .str "Product"),
                      ("name", .str "Test Product")]]) := by
  have h1 : cleanTypeName "Product" = "Product" := by decide
  simp [extract_jsonld_objects, collectTyped, alistGet, typeStrings,
    h1, updEntry]

/-- A DOM node as produced by the tolerant HTML5 parse (`scraper::Html`):
an element with tag name, attributes and children, or a text node. -/
inductive Node where
  | text (s : String)
  | elem (tag : String) (attrs : List (String × String)) (children : List Node)

/-- Attribute lookup on an element (`Element::attr`); `none` on text
nodes. -/
def getAttr : Node → String → Option String
  | .text _, _ => none
  | .elem _ attrs _, name => alistGet attrs name

/-- `element.value().attr(name).is_some()`. -/
def hasAttr (n : Node) (name : String) : Bool :=
  (getAttr n name).isSome

/-- Tag name of an element (`Element::name`); empty on text nodes. -/
def tagOf : Node → String
  | .text _ => ""
  | .elem tag _ _ => tag

mutual

/-- `element.text().collect::<String>()`: concatenation of all text-node
descendants in tree order. -/
def nodeText : Node → String
  | .text s => s
  | .elem _ _ cs => nodeTextList cs

/-- Text collection over a child list. -/
def nodeTextList : List Node → String
  | [] => ""
  | c :: cs => nodeText c ++ nodeTextList cs

end

mutual

/-- All element nodes of a subtree in depth-first pre-order, the order
`scraper`'s selector iteration visits them. -/
def elemsOfNode : Node → List Node
  | .text _ => []
  | .elem t a cs => .elem t a cs :: elemsOfList cs

/-- Pre-order element traversal of a node list. -/
def elemsOfList : List Node → List Node
  | [] => []
  | c :: cs => elemsOfNode c ++ elemsOfList cs

end

/-- All elements of a document (a forest of root nodes) in tree order. -/
def allElems (doc : List Node) : List Node :=
  elemsOfList doc

mutual

/-- Descendant elements of a subtree paired with the chain of ancestor
elements strictly between the descendant and the traversal root,
nearest ancestor first. -/
def descsNode (between : List Node) : Node → List (List Node × Node)
  | .text _ => []
  | .elem t a cs =>
      (between, .elem t a cs) :: descsList (.elem t a cs :: between) cs

/-- Descendant traversal over a child list. -/
def descsList (between : List Node) : List Node → List (List Node × Node)
  | [] => []
  | c :: cs => descsNode between c ++ descsList between cs

end

/-- `element.select(sel)` ranges over the strict descendants of the
element in pre-order; each is paired here with the elements strictly
between it and `element` (nearest first), the chain the
`microdata_extractor` ancestor walk inspects. -/
def strictDescs : Node → List (List Node × Node)
  | .text _ => []
  | .elem _ _ cs => descsList [] cs

/-- Replace the value of the first entry with the given key, or append a
new entry (`HashMap::insert` / `serde_json::Map::insert`; only per-key
lookup is observable in the claims). -/
def insertOverwrite {α : Type} : List (String × α) → String → α → List (String × α)
  | [], k, v => [(k, v)]
  | (k', v') :: rest, k, v =>
      if k' = k then (k', v) :: rest
      else (k', v') :: insertOverwrite rest k v

/-- `itemtype.rsplit('/').next().unwrap_or(itemtype)`: the substring
after the last `/` (the whole string when there is none). -/
def lastSlashSeg (s : String) : String :=
  ((s.toList.reverse.takeWhile (fun c => c ≠ '/')).reverse).asString

/-- Does `s` start with `p`? (`str::starts_with`, and the CSS `^=`
attribute operator). -/
def startsWithStr (p s : String) : Bool :=
  (charsDropPre p.toList s.toList).isSome

/-- Property value extraction of the spec-engine microdata walk
(extractors.rs, `extract_microdata`): `content`, else `href`, else
`src`, else the trimmed text content. -/
def mdPropValue (d : Node) : String :=
  match getAttr d "content" with
  | some v => v
  | none =>
      match getAttr d "href" with
      | some v => v
      | none =>
          match getAttr d "src" with
          | some v => v
          | none => strTrim (nodeText d)

/-- `extract_microdata` (extractors.rs): the spec-engine microdata
index.  Walks every `[itemscope][itemtype]` element of the document; for
each, every strict descendant carrying `[itemprop]` contributes a
property (later duplicates overwriting earlier ones), and the item is
pushed onto the per-type list. -/
def extract_microdata_engine (doc : List Node) : List (String × Json) :=
  let collected :=
    (allElems doc).foldl
      (fun acc el =>
        if hasAttr el "itemscope" && hasAttr el "itemtype" then
          match getAttr el "itemtype" with
          | some itemtype =>
              let typeName := lastSlashSeg itemtype
              let props :=
                (strictDescs el).foldl
                  (fun ps p =>
                    match getAttr p.2 "itemprop" with
                    | some propName =>
                        insertOverwrite ps propName (.str (mdPropValue p.2))
                    | none => ps)
                  []
              updEntry acc typeName (.obj props)
          | none => acc
        else acc)
      []
  collected.map (fun (k, v) => (k, Json.arr v))

/-- `extract_opengraph` (extractors.rs): the spec-engine OpenGraph
index.  Every `meta[property^="og:"]` element with a `content` attribute
inserts (overwriting) under the property stripped of its `og:` prefix. -/
def extract_opengraph_engine (doc : List Node) : List (String × String) :=
  (allElems doc).foldl
    (fun acc el =>
      if tagOf el = "meta"
          && (match getAttr el "property" with
              | some p => startsWithStr "og:" p
              | none => false) then
        match getAttr el "property", getAttr el "content" with
        | some prop, some content =>
            let key :=
              match dropPre "og:" prop with
              | some k => k
              | none => prop
            insertOverwrite acc key content
        | _, _ => acc
      else acc)
    []

/-- `extract_meta_tags` (extractors.rs): every `meta[name]` element with
a `content` attribute inserts (overwriting) under its `name`. -/
def extract_meta_tags (doc : List Node) : List (String × String) :=
  (allElems doc).foldl
    (fun acc el =>
      if tagOf el = "meta" && hasAttr el "name" then
        match getAttr el "name", getAttr el "content" with
        | some name, some content => insertOverwrite acc name content
        | _, _ => acc
      else acc)
    []

mutual

/-- Any descendant produced by `descsNode` is no larger than the node. -/
theorem descsNode_sizeOf (b : List Node) (n : Node) (p : List Node × Node)
    (hp : p ∈ descsNode b n) : sizeOf p.2 ≤ sizeOf n := by
  match n with
  | .text s => simp [descsNode] at hp
  | .elem t a cs =>
      simp only [descsNode, List.mem_cons] at hp
      rcases hp with h | h
      · subst h; simp
      · have := descsList_sizeOf (Node.elem t a cs :: b) cs p h
        simp
        omega

/-- Any descendant produced by `descsList` is no larger than the list. -/
theorem descsList_sizeOf (b : List Node) (cs : List Node) (p : List Node × Node)
    (hp : p ∈ descsList b cs) : sizeOf p.2 ≤ sizeOf cs := by
  match cs with
  | [] => simp [descsList] at hp
  | c :: rest =>
      simp only [descsList, List.mem_append] at hp
      rcases hp with h | h
      · have := descsNode_sizeOf b c p h
        simp
        omega
      · have := descsList_sizeOf b rest p h
        simp
        omega

end

/-- A strict descendant is strictly smaller than its root element. -/
theorem strictDescs_sizeOf (e : Node) (p : List Node × Node)
    (hp : p ∈ strictDescs e) : sizeOf p.2 < sizeOf e := by
  match e with
  | .text s => simp [strictDescs] at hp
  | .elem t a cs =>
      have := descsList_sizeOf [] cs p hp
      simp
      omega

/-- Modify the value of the first entry with the given key in place
(`HashMap::get_mut` followed by assignment). -/
def alistModify {α : Type} : List (String × α) → String → (α → α) → List (String × α)
  | [], _, _ => []
  | (k', v) :: rest, k, f =>
      if k' = k then (k', f v) :: rest
      else (k', v) :: alistModify rest k f

/-- Replace-or-append under a key (`Map::entry(k).or_insert` followed by
in-place mutation of the entry). -/
def alistSet {α : Type} : List (String × α) → String → α → List (String × α)
  | [], k, v => [(k, v)]
  | (k', v') :: rest, k, v =>
      if k' = k then (k', v) :: rest
      else (k', v') :: alistSet rest k v

/-- The duplicate-property merge of `microdata_extractor::extract_item`
(and, identically, of `opengraph_extractor::insert_value` on simple
keys): an existing array gets the value pushed, an existing scalar is
replaced by a two-element array, a missing key is inserted. -/
def mdAccumInsert (m : List (String × Json)) (k : String) (v : Json) :
    List (String × Json) :=
  match alistGet m k with
  | some _ =>
      alistModify m k
        (fun old =>
          match old with
          | .arr a => .arr (a ++ [v])
          | other => .arr [other, v])
  | none => m ++ [(k, v)]

/-- Scalar microdata property value by tag
(`microdata_extractor::extract_item`, the `value_string` match),
followed by the final `.trim()`. -/
def scalarPropValue (d : Node) : String :=
  let tag := tagOf d
  let raw :=
    if tag = "meta" then (getAttr d "content").getD ""
    else if tag = "link" ∨ tag = "a" ∨ tag = "area" then
      (getAttr d "href").getD ""
    else if tag = "img" ∨ tag = "audio" ∨ tag = "video" ∨ tag = "source" then
      (getAttr d "src").getD ""
    else if tag = "time" then
      match getAttr d "datetime" with
      | some s => s
      | none => nodeText d
    else if tag = "data" ∨ tag = "meter" then (getAttr d "value").getD ""
    else nodeText d
  strTrim raw

/-- The ancestor walk of `extract_item` (microdata_extractor.rs:86-99)
over the element ancestors strictly between an `[itemprop]` descendant
and the item element, nearest first.  At each ancestor the source first
compares `parent_elem.id() == element.value().id()` — scraper's
`Element::id()` is the HTML `id` *attribute* (`Option<&str>`), so the
walk breaks with "we're good" as soon as an ancestor's `id` attribute
equals the item's (in particular at the very first ancestor when both
are absent: `None == None`); only otherwise does it test the ancestor
for `[itemscope]` and break with `found_itemscope = true`.  An
exhausted chain means the walk reached the item element itself, whose
`id` trivially equals its own. -/
def ancestorScopeWalk (eid : Option String) : List Node → Bool
  | [] => false
  | a :: rest =>
      if getAttr a "id" = eid then false
      else if hasAttr a "itemscope" then true
      else ancestorScopeWalk eid rest

mutual

/-- `extract_item` (microdata_extractor.rs): build the property map of a
microdata item.  `@type` / `@id` come from the element's own attributes;
then every strict descendant carrying `[itemprop]` is visited in
pre-order, skipping those whose id-attribute ancestor walk
(`ancestorScopeWalk`) meets another `[itemscope]` element before an
ancestor whose `id` attribute equals the item's; nested `[itemscope]`
descendants recurse, and duplicate property names accumulate into
arrays. -/
def extract_item (e : Node) : Json :=
  let item0 : List (String × Json) :=
    match getAttr e "itemtype" with
    | some itemtype => [("@type", Json.str (lastSlashSeg itemtype))]
    | none => []
  let item1 : List (String × Json) :=
    match getAttr e "itemid" with
    | some itemid => insertOverwrite item0 "@id" (.str itemid)
    | none => item0
  Json.obj
    (extract_item_loop e
      ((strictDescs e).filter (fun p => hasAttr p.2 "itemprop")) item1
      (fun p hp =>
        strictDescs_sizeOf e p (List.mem_of_mem_filter hp)))
termination_by (sizeOf e, 1, 0)

/-- The `[itemprop]` descendant loop of `extract_item`.  The source's
ancestor walk (`prop_element.parent()` upward) runs over the elements
strictly between the descendant and the item element, nearest first,
with the id-attribute break semantics of `ancestorScopeWalk`. -/
def extract_item_loop (e : Node) (l : List (List Node × Node))
    (item : List (String × Json))
    (h : ∀ p ∈ l, sizeOf p.2 < sizeOf e) : List (String × Json) :=
  match l with
  | [] => item
  | (between, d) :: rest =>
      let foundItemscope := ancestorScopeWalk (getAttr e "id") between
      if foundItemscope then
        extract_item_loop e rest item
          (fun p hp => h p (List.mem_cons_of_mem _ hp))
      else
        match getAttr d "itemprop" with
        | none =>
            extract_item_loop e rest item
              (fun p hp => h p (List.mem_cons_of_mem _ hp))
        | some propName =>
            let propValue :=
              if hasAttr d "itemscope" then extract_item d
              else Json.str (scalarPropValue d)
            extract_item_loop e rest (mdAccumInsert item propName propValue)
              (fun p hp => h p (List.mem_cons_of_mem _ hp))
termination_by (sizeOf e, 0, l.length)
decreasing_by
  all_goals first
  | exact Prod.Lex.left _ _ (h (between, d) (by simp))
  | exact Prod.Lex.right _ (Prod.Lex.right _ (by simp))

end

/-- Split at the first occurrence of a character (`str::find` plus
slicing): returns the parts before and after the character. -/
def splitAtChar (ch : Char) : List Char → Option (List Char × List Char)
  | [] => none
  | c :: cs =>
      if c = ch then some ([], cs)
      else (splitAtChar ch cs).map (fun p => (c :: p.1, p.2))

/-- `insert_value` (opengraph_extractor.rs).  Keys containing `:` nest
under the part before the colon (`_value` preserving an overwritten
scalar); repeated simple keys accumulate scalar → two-element array →
push. -/
def og_insert_value (m : List (String × Json)) (key value : String) :
    List (String × Json) :=
  match splitAtChar ':' key.toList with
  | some (mainCs, subCs) =>
      let mainKey := mainCs.asString
      let subKey := subCs.asString
      let nested :=
        match alistGet m mainKey with
        | some v => v
        | none => Json.obj []
      let newNested :=
        match nested with
        | .obj nm => Json.obj (insertOverwrite nm subKey (.str value))
        | .str existing =>
            Json.obj [("_value", .str existing), (subKey, .str value)]
        | other => other
      alistSet m mainKey newNested
  | none =>
      if (alistGet m key).isSome then
        alistModify m key
          (fun existing =>
            match existing with
            | .arr a => .arr (a ++ [.str value])
            | other => .arr [other, .str value])
      else m ++ [(key, .str value)]

/-- The per-`meta`-element state update of the standalone
`extract_opengraph` (opengraph_extractor.rs): the `og`, `twitter` and
`meta` maps in order. -/
def og_step (st : List (String × Json) × List (String × Json) × List (String × Json))
    (el : Node) :
    List (String × Json) × List (String × Json) × List (String × Json) :=
  let property := getAttr el "property"
  let name := getAttr el "name"
  let content := (getAttr el "content").getD ""
  if content = "" then st
  else
    let og1 :=
      match property with
      | some prop =>
          if startsWithStr "og:" prop then
            match dropPre "og:" prop with
            | some key => og_insert_value st.1 key content
            | none => st.1
          else if startsWithStr "article:" prop || startsWithStr "product:" prop then
            og_insert_value st.1 prop content
          else st.1
      | none => st.1
    let tw1 :=
      match name with
      | some n =>
          if startsWithStr "twitter:" n then
            match dropPre "twitter:" n with
            | some key => og_insert_value st.2.1 key content
            | none => st.2.1
          else st.2.1
      | none => st.2.1
    let meta1 :=
      match name with
      | some n =>
          if n = "description" ∨ n = "keywords" ∨ n = "author" ∨ n = "robots"
              ∨ n = "viewport" ∨ n = "generator" ∨ n = "theme-color"
              ∨ n = "canonical" then
            insertOverwrite st.2.2 n (.str content)
          else st.2.2
      | none => st.2.2
    (og1, tw1, meta1)

/-- The `meta` elements of a document in tree order (the scraper
selection `document.select("meta")`). -/
def metaElems (doc : List Node) : List Node :=
  (allElems doc).filter (fun el => tagOf el = "meta")

/-- `extract_opengraph` (opengraph_extractor.rs): the standalone
OpenGraph extractor, assembling the non-empty `og` / `twitter` / `meta`
groups. -/
def extract_opengraph_standalone (doc : List Node) : Json :=
  let st := (metaElems doc).foldl og_step ([], [], [])
  Json.obj
    ((if st.1.isEmpty then [] else [("og", Json.obj st.1)]) ++
     (if st.2.1.isEmpty then [] else [("twitter", Json.obj st.2.1)]) ++
     (if st.2.2.isEmpty then [] else [("meta", Json.obj st.2.2)]))

/-- Fractional decimal digits of `num/den` by long division, stopping
when the remainder vanishes (`fuel` bounds the expansion; every float
value has a finite decimal expansion well inside the bound). -/
def fracDigits : Nat → Nat → Nat → List Char
  | 0, _, _ => []
  | _ + 1, 0, _ => []
  | fuel + 1, rem, den =>
      let digit := rem * 10 / den
      let rem' := rem * 10 % den
      Char.ofNat (48 + digit) :: fracDigits fuel rem' den

/-- Decimal rendering of a rational, standing for the `Display` of an
`f64` (Rust prints the shortest round-tripping decimal; on the values
the claims touch — integers and short decimals — the two coincide, and
no claim depends on float formatting). -/
def ratDecimalString (q : Rat) : String :=
  let sign := if q < 0 then "-" else ""
  let n := q.num.natAbs
  let d := q.den
  let ip := n / d
  let rem := n % d
  if rem = 0 then sign ++ toString ip
  else sign ++ toString ip ++ "." ++ (fracDigits 1200 rem d).asString

/-- JSON string escaping of `serde_json`'s serializer. -/
def jsonEscapeChar (c : Char) : String :=
  if c = '"' then "\\\""
  else if c = '\\' then "\\\\"
  else if c = Char.ofNat 8 then "\\b"
  else if c = Char.ofNat 12 then "\\f"
  else if c = '\n' then "\\n"
  else if c = Char.ofNat 13 then "\\r"
  else if c = Char.ofNat 9 then "\\t"
  else if c.toNat < 32 then
    "\\u00" ++ String.mk [Char.ofNat (if c.toNat / 16 < 10 then 48 + c.toNat / 16 else 87 + c.toNat / 16),
                          Char.ofNat (if c.toNat % 16 < 10 then 48 + c.toNat % 16 else 87 + c.toNat % 16)]
  else String.mk [c]

/-- `serde_json` string literal serialization. -/
def jsonEscape (s : String) : String :=
  "\"" ++ String.join (s.toList.map jsonEscapeChar) ++ "\""

mutual

/-- `serde_json::Value::to_string()`: compact canonical serialization. -/
def jsonSerialize : Json → String
  | .null => "null"
  | .bool b => if b then "true" else "false"
  | .num n => toString n
  | .numF q => ratDecimalString q
  | .str s => jsonEscape s
  | .arr es => "[" ++ jsonSerializeElems es ++ "]"
  | .obj fs => "\x7b" ++ jsonSerializeFields fs ++ "\x7d"

/-- Comma-joined array elements. -/
def jsonSerializeElems : List Json → String
  | [] => ""
  | [e] => jsonSerialize e
  | e :: rest => jsonSerialize e ++ "," ++ jsonSerializeElems rest

/-- Comma-joined object fields. -/
def jsonSerializeFields : List (String × Json) → String
  | [] => ""
  | [(k, v)] => jsonEscape k ++ ":" ++ jsonSerialize v
  | (k, v) :: rest => jsonEscape k ++ ":" ++ jsonSerialize v ++ "," ++ jsonSerializeFields rest

end

/-- swc `PropName`: identifier, string, or numeric property names;
`otherName` stands for computed (and bigint) names. -/
inductive JPropName where
  | identName (s : String)
  | strName (s : String)
  | numName (q : Rat)
  | otherName

/-- swc `MemberProp`: an identifier property or anything else
(private names, computed members). -/
inductive JMemberProp where
  | identProp (s : String)
  | otherMemberProp

/-- swc `AssignTarget`: `Simple(SimpleAssignTarget::Ident)` or any
other target form (member expressions, patterns, ...). -/
inductive JAssignTarget where
  | simpleIdent (s : String)
  | otherTarget

/-- swc `UnaryOp`, only `-` is inspected by the source. -/
inductive JUnaryOp where
  | minus
  | plus
  | otherUnary
deriving DecidableEq

mutual

/-- swc expression AST, restricted to the constructors `expr_to_json`
inspects.  `otherExpr` stands for every other expression form (all of
which fall into the evaluator's catch-all `_ => None`). -/
inductive JExpr where
  | litStr (s : String)
  | litNum (q : Rat)
  | litBool (b : Bool)
  | litNull
  | object (props : List JProp)
  | array (elems : List (Option JArrElem))
  | call (callee : JCallee) (args : List JArrElem)
  | unary (op : JUnaryOp) (arg : JExpr)
  | tpl (quasis : List String) (exprs : List JExpr)
  | member (obj : JExpr) (prop : JMemberProp)
  | identRef (s : String)
  | assign (target : JAssignTarget) (rhs : JExpr)
  | otherExpr

/-- swc `PropOrSpread` / `Prop`: spread, `key: value`, or any other
property form (shorthand, methods, accessors), all but `keyValue`
skipped by the evaluator. -/
inductive JProp where
  | spreadProp (e : JExpr)
  | keyValue (key : JPropName) (value : JExpr)
  | otherProp

/-- swc `ExprOrSpread` (array elements and call arguments): the spread
flag is carried but never read by the evaluator. -/
inductive JArrElem where
  | mk (spread : Bool) (e : JExpr)

/-- swc `Callee`: an expression callee or `Super` / `Import`. -/
inductive JCallee where
  | calleeExpr (e : JExpr)
  | otherCallee

end

/-- `prop_name_to_string` (extractors.rs). -/
def prop_name_to_string : JPropName → Option String
  | .identName s => some s
  | .strName s => some s
  | .numName q => some (ratDecimalString q)
  | .otherName => none

/-- `is_json_parse_call` (extractors.rs): the callee is exactly the
member expression `JSON.parse`. -/
def is_json_parse_call (callee : JCallee) : Bool :=
  match callee with
  | .calleeExpr (.member (.identRef obj) (.identProp prop)) =>
      obj = "JSON" && prop = "parse"
  | _ => false

/-- The signed 64-bit bounds check and saturating cast of the numeric
branches of `expr_to_json`: `v.fract() == 0.0 && v >= i64::MIN as f64 &&
v <= i64::MAX as f64` (the bounds round to ±2^63) followed by `v as i64`
(which saturates at `i64::MAX`). -/
def numToJson (q : Rat) : Option Json :=
  if q.den = 1 ∧ -(2 ^ 63 : Int) ≤ q.num ∧ q.num ≤ (2 ^ 63 : Int) then
    some (Json.num (min q.num (2 ^ 63 - 1)))
  else
    some (Json.numF q)

mutual

/-- `expr_to_json` (extractors.rs): statically reduce a JavaScript
expression to a JSON value.  `parse` stands for `serde_json::from_str`
on the argument of a `JSON.parse` call. -/
def expr_to_json (parse : String → Option Json) : JExpr → Option Json
  | .litStr s => some (.str s)
  | .litNum q => numToJson q
  | .litBool b => some (.bool b)
  | .litNull => some .null
  | .object props =>
      match objectProps parse [] props with
      | some fields => some (.obj fields)
      | none => none
  | .array elems => some (.arr (arrayElems parse elems))
  | .call callee args =>
      if is_json_parse_call callee then
        match args.head? with
        | some (.mk _ (.litStr s)) =>
            match parse s with
            | some value => some value
            | none => none
        | _ => none
      else none
  | .unary op arg =>
      if op = JUnaryOp.minus then
        match arg with
        | .litNum q => numToJson (-q)
        | _ => none
      else none
  | .tpl quasis exprs =>
      if exprs.isEmpty then
        match quasis.head? with
        | some quasi => some (.str quasi)
        | none => none
      else none
  | .member _ _ => none
  | .identRef _ => none
  | .assign _ _ => none
  | .otherExpr => none

/-- The object-literal loop of `expr_to_json`, with the map built so
far as accumulator: `key: value` properties are inserted in order; a
failing key or value conversion makes the whole object fail (the `?`
operator propagates out of `expr_to_json`); spread and non-key-value
properties are skipped. -/
def objectProps (parse : String → Option Json)
    (acc : List (String × Json)) :
    List JProp → Option (List (String × Json))
  | [] => some acc
  | .spreadProp _ :: rest => objectProps parse acc rest
  | .otherProp :: rest => objectProps parse acc rest
  | .keyValue key value :: rest =>
      match prop_name_to_string key with
      | none => none
      | some k =>
          match expr_to_json parse value with
          | none => none
          | some v => objectProps parse (insertOverwrite acc k v) rest

/-- The array-literal loop of `expr_to_json`: elided slots and
unreducible elements become `null`. -/
def arrayElems (parse : String → Option Json) :
    List (Option JArrElem) → List Json
  | [] => []
  | none :: rest => Json.null :: arrayElems parse rest
  | some (.mk _ e) :: rest =>
      match expr_to_json parse e with
      | some v => v :: arrayElems parse rest
      | none => Json.null :: arrayElems parse rest

end

/-- swc `Pat` in a `VarDeclarator` name position: a plain identifier or
any other pattern. -/
inductive JPat where
  | identPat (s : String)
  | otherPat

/-- swc `Stmt`, restricted to the forms `extract_vars_from_stmt`
inspects: variable declarations, expression statements, other. -/
inductive JStmt where
  | varDecl (decls : List (JPat × Option JExpr))
  | exprStmt (e : JExpr)
  | otherStmt

/-- `extract_vars_from_stmt` (extractors.rs): record bindings from
`var|let|const name = expr` declarators and from top-level
`name = expr` assignment expressions. -/
def extract_vars_from_stmt (parse : String → Option Json) (stmt : JStmt)
    (result : List (String × Json)) : List (String × Json) :=
  match stmt with
  | .varDecl decls =>
      decls.foldl
        (fun res d =>
          match d.2 with
          | some init =>
              match d.1 with
              | .identPat varName =>
                  match expr_to_json parse init with
                  | some value => insertOverwrite res varName value
                  | none => res
              | .otherPat => res
          | none => res)
        result
  | .exprStmt e =>
      match e with
      | .assign target rhs =>
          match target with
          | .simpleIdent varName =>
              match expr_to_json parse rhs with
              | some value => insertOverwrite result varName value
              | none => result
          | .otherTarget => result
      | _ => result
  | .otherStmt => result

/-- `parse_js_and_extract_vars` (extractors.rs), after the swc parse:
fold the statement extraction over the script body. -/
def parse_js_and_extract_vars (parse : String → Option Json)
    (body : List JStmt) : List (String × Json) :=
  body.foldl (fun res stmt => extract_vars_from_stmt parse stmt res) []

/-- `extract_js_variables` (extractors.rs): merge the bindings of every
successfully parsed candidate script (`none` = swc parse failure, the
script contributes nothing), later scripts overwriting earlier
bindings. -/
def extract_js_variables (parse : String → Option Json)
    (scripts : List (Option (List JStmt))) : List (String × Json) :=
  scripts.foldl
    (fun result script =>
      match script with
      | some body =>
          (parse_js_and_extract_vars parse body).foldl
            (fun r p => insertOverwrite r p.1 p.2) result
      | none => result)
    []

/-- `value_to_string` (extractors.rs). -/
def value_to_string (value : Json) (return_text : Bool) : Option String :=
  if return_text then
    match value with
    | .str s => some s
    | .null => none
    | v => some (jsonSerialize v)
  else some (jsonSerialize value)

/-- Walk remaining path segments by object-key lookup
(`current.get(segment)?` in `extract_from_jsonld` /
`extract_from_microdata`). -/
def navKeySegments (v : Json) : List String → Option Json
  | [] => some v
  | s :: rest =>
      match v.getKey s with
      | some v' => navKeySegments v' rest
      | none => none

/-- `extract_from_jsonld` (extractors.rs): `path[0]` is the type, take
the first item of its array, walk the remaining segments, stringify. -/
def extract_from_jsonld (data : List (String × Json)) (path : List String)
    (return_text : Bool) : Option String :=
  match path with
  | [] => none
  | typeName :: rest =>
      match alistGet data typeName with
      | none => none
      | some arr =>
          match arr.asArr with
          | none => none
          | some elems =>
              match elems.head? with
              | none => none
              | some obj =>
                  match navKeySegments obj rest with
                  | none => none
                  | some current => value_to_string current return_text

/-- `extract_from_microdata` (extractors.rs): same walk as JSON-LD. -/
def extract_from_microdata (data : List (String × Json)) (path : List String)
    (return_text : Bool) : Option String :=
  match path with
  | [] => none
  | typeName :: rest =>
      match alistGet data typeName with
      | none => none
      | some arr =>
          match arr.asArr with
          | none => none
          | some elems =>
              match elems.head? with
              | none => none
              | some obj =>
                  match navKeySegments obj rest with
                  | none => none
                  | some current => value_to_string current return_text

/-- `extract_from_og` (extractors.rs): flat lookup of `path[0]`. -/
def extract_from_og (data : List (String × String)) (path : List String) :
    Option String :=
  match path with
  | [] => none
  | k :: _ => alistGet data k

/-- `extract_from_meta` (extractors.rs): flat lookup of `path[0]`. -/
def extract_from_meta (data : List (String × String)) (path : List String) :
    Option String :=
  match path with
  | [] => none
  | k :: _ => alistGet data k

/-- `usize::from_str`: optional `+` sign then decimal digits. -/
def usizeParse (s : String) : Option Nat :=
  let cs := s.toList
  let cs :=
    match cs with
    | '+' :: t => t
    | l => l
  if cs ≠ [] ∧ cs.all (fun c => c.isDigit) then
    some (cs.foldl (fun n c => n * 10 + (c.toNat - 48)) 0)
  else none

/-- The segment walk of `extract_from_js`: object key first, else array
index when the segment parses as `usize`. -/
def jsNavSegments (v : Json) : List String → Option Json
  | [] => some v
  | s :: rest =>
      let nxt :=
        match v.getKey s with
        | some v' => some v'
        | none =>
            match usizeParse s with
            | some idx => v.getIdx idx
            | none => none
      match nxt with
      | some v' => jsNavSegments v' rest
      | none => none

/-- `extract_from_js` (extractors.rs): `path[0]` is the variable name,
remaining segments navigate by key with numeric-index fallback. -/
def extract_from_js (data : List (String × Json)) (path : List String)
    (return_text : Bool) : Option String :=
  match path with
  | [] => none
  | varName :: rest =>
      match alistGet data varName with
      | none => none
      | some obj =>
          match jsNavSegments obj rest with
          | none => none
          | some current => value_to_string current return_text

/-- The extraction specification record (`ExtractSpec`, extractors.rs);
recursive because of the COALESCE `alternatives` list. -/
inductive ExtractSpec where
  | mk (source : String) (path : List String) (selector : Option String)
      (accessor : Option String) (return_text : Bool) (aliasName : String)
      (alternatives : List ExtractSpec) (is_json_cast : Bool)
      (expand_array : Bool) (array_field : Option String)
      (json_path : Option String)

/-- The `alias` field (`alias` is reserved in Lean). -/
def ExtractSpec.aliasName : ExtractSpec → String
  | .mk _ _ _ _ _ a _ _ _ _ _ => a

/-- The `is_json_cast` field. -/
def ExtractSpec.is_json_cast : ExtractSpec → Bool
  | .mk _ _ _ _ _ _ _ c _ _ _ => c

/-- The `expand_array` field. -/
def ExtractSpec.expand_array : ExtractSpec → Bool
  | .mk _ _ _ _ _ _ _ _ e _ _ => e

/-- The `array_field` field. -/
def ExtractSpec.array_field : ExtractSpec → Option String
  | .mk _ _ _ _ _ _ _ _ _ f _ => f

/-- The `json_path` field. -/
def ExtractSpec.json_path : ExtractSpec → Option String
  | .mk _ _ _ _ _ _ _ _ _ _ p => p

/-- The `alternatives` field. -/
def ExtractSpec.alternatives : ExtractSpec → List ExtractSpec
  | .mk _ _ _ _ _ _ alts _ _ _ _ => alts

/-- The pre-extracted Document Index handed to `extract_single`
(extractors.rs, `extract_all`): the five sub-indices plus the
`extract_from_css` call, which wraps the scraper selector engine and is
treated as an oracle of (selector, accessor). -/
structure ExtractCtx where
  jsonld : List (String × Json)
  microdata : List (String × Json)
  og : List (String × String)
  meta : List (String × String)
  js : List (String × Json)
  css : Option String → Option String → Option String

/-- The `source` dispatch of `extract_single` (extractors.rs): the
computation of the primary `result` before COALESCE. -/
def extractPrimary (ctx : ExtractCtx) : ExtractSpec → Option String
  | .mk source path selector accessor return_text _ _ _ _ _ _ =>
      if source = "jsonld" then extract_from_jsonld ctx.jsonld path return_text
      else if source = "microdata" then
        extract_from_microdata ctx.microdata path return_text
      else if source = "og" then extract_from_og ctx.og path
      else if source = "meta" then extract_from_meta ctx.meta path
      else if source = "css" then ctx.css selector accessor
      else if source = "js" then extract_from_js ctx.js path return_text
      else none

mutual

/-- `extract_single` (extractors.rs): dispatch on `source`, then — when
the primary result is null and alternatives exist — COALESCE over the
alternatives in order. -/
def extract_single (ctx : ExtractCtx) : ExtractSpec → Option String
  | .mk source path selector accessor return_text a alts c e f p =>
      let result :=
        extractPrimary ctx (.mk source path selector accessor return_text a alts c e f p)
      if result.isNone && !alts.isEmpty then
        match tryAlternatives ctx alts with
        | some v => some v
        | none => result
      else result

/-- The COALESCE loop of `extract_single`: first non-null alternative
wins. -/
def tryAlternatives (ctx : ExtractCtx) : List ExtractSpec → Option String
  | [] => none
  | alt :: rest =>
      match extract_single ctx alt with
      | some v => some v
      | none => tryAlternatives ctx rest

end

/-- `str::trim_start` on a character list. -/
def trimStartChars (cs : List Char) : List Char :=
  cs.dropWhile (fun c => c.isWhitespace)

/-- Index of the first occurrence of a character (`str::find(char)`). -/
def charIndexOf (ch : Char) (l : List Char) : Option Nat :=
  l.findIdx? (fun c => c = ch)

/-- Index of the first occurrence of a substring (`str::find(&str)`). -/
def findSubIdx (needle : List Char) : List Char → Option Nat
  | [] => if (charsDropPre needle ([] : List Char)).isSome then some 0 else none
  | c :: t =>
      if (charsDropPre needle (c :: t)).isSome then some 0
      else (findSubIdx needle t).map (fun n => n + 1)

/-- `dropWhile` never lengthens a list. -/
theorem dropWhile_length_le {α : Type} (p : α → Bool) (l : List α) :
    (l.dropWhile p).length ≤ l.length := by
  induction l with
  | nil => simp [List.dropWhile]
  | cons c t ih =>
    simp only [List.dropWhile]
    split
    · simp
      omega
    · simp

/-- Lexicographic helper: a non-increasing first component with a
decreasing second component. -/
theorem lex_le_lt {a c b d : Nat} (h1 : a ≤ c) (h2 : b < d) :
    Prod.Lex Nat.lt Nat.lt (a, b) (c, d) := by
  rcases Nat.lt_or_ge a c with h | h
  · exact Prod.Lex.left _ _ h
  · have : a = c := Nat.le_antisymm h1 h
    subst this
    exact Prod.Lex.right _ h2

mutual

/-- The navigation loop of `navigate_json_path` (extractors.rs): each
iteration consumes a `->>` or `->` arrow (anything else breaks the loop,
returning the current value), then a key, then navigates. -/
def navGo (cs : List Char) (current : Json) : Option Json :=
  if h3 : cs.take 3 = ['-', '>', '>'] then
    navKey (cs.drop 3) current
  else if h2 : cs.take 2 = ['-', '>'] then
    navKey (cs.drop 2) current
  else some current
termination_by (cs.length, 0)
decreasing_by
  · have : 3 ≤ cs.length := by
      have := congrArg List.length h3
      simp [List.length_take] at this
      omega
    exact Prod.Lex.left _ _ (by simp [List.length_drop]; omega)
  · have : 2 ≤ cs.length := by
      have := congrArg List.length h2
      simp [List.length_take] at this
      omega
    exact Prod.Lex.left _ _ (by simp [List.length_drop]; omega)

/-- The key-extraction step of `navigate_json_path`: after
`trim_start`, a single-quoted key, a double-quoted key, a bracketed
key, or a bareword key terminated by the next `->`. -/
def navKey (cs : List Char) (current : Json) : Option Json :=
  match ht : trimStartChars cs with
  | '\'' :: tail =>
      match charIndexOf '\'' tail with
      | none => none
      | some i =>
          navStep ((tail.take i).asString) (tail.drop (i + 1)) current
  | '"' :: tail =>
      match charIndexOf '"' tail with
      | none => none
      | some i =>
          navStep ((tail.take i).asString) (tail.drop (i + 1)) current
  | t =>
      if hb : t.head? = some '[' then
        match charIndexOf ']' t with
        | none => none
        | some i =>
            navStep (((t.drop 1).take (i - 1)).asString) (t.drop (i + 1)) current
      else
        let i := (findSubIdx ['-', '>'] t).getD t.length
        navStep (strTrim ((t.take i).asString)) (t.drop i) current
termination_by (cs.length, 2)
decreasing_by
  · have hle : (trimStartChars cs).length ≤ cs.length :=
      dropWhile_length_le _ _
    rw [ht] at hle
    apply lex_le_lt _ (by omega)
    simp [List.length_drop] at hle ⊢
    omega
  · have hle : (trimStartChars cs).length ≤ cs.length :=
      dropWhile_length_le _ _
    rw [ht] at hle
    apply lex_le_lt _ (by omega)
    simp [List.length_drop] at hle ⊢
    omega
  · have hle : (trimStartChars cs).length ≤ cs.length :=
      dropWhile_length_le _ _
    rw [ht] at hle
    apply lex_le_lt _ (by omega)
    simp [List.length_drop]
    omega
  · have hle : (trimStartChars cs).length ≤ cs.length :=
      dropWhile_length_le _ _
    rw [ht] at hle
    apply lex_le_lt _ (by omega)
    simp [List.length_drop]
    omega

/-- The navigate step of `navigate_json_path`: an integer-parsable key
indexes arrays, otherwise map lookup; a missing key aborts with
`none`. -/
def navStep (key : String) (rest : List Char) (current : Json) : Option Json :=
  match usizeParse key with
  | some idx =>
      match current.getIdx idx with
      | some c => navGo rest c
      | none => none
  | none =>
      match current.getKey key with
      | some c => navGo rest c
      | none => none
termination_by (rest.length, 1)
decreasing_by
  · exact Prod.Lex.right _ (by omega)
  · exact Prod.Lex.right _ (by omega)

end

/-- `navigate_json_path` (extractors.rs): arrow-path navigation over a
JSON value, starting from the trimmed path. -/
def navigate_json_path (value : Json) (path : String) : Option Json :=
  navGo (strTrim path).toList value

/-- `if let Value::String(s) = v { s.clone() } else { v.to_string() }`:
the stringification of expanded array cells. -/
def jsonValueToCell (v : Json) : String :=
  match v with
  | .str s => s
  | other => jsonSerialize other

/-- The per-spec body of the `extract_all` loop (extractors.rs):
handles JSON cast, arrow-path navigation and array expansion, updating
the `values` and `expanded_values` maps. -/
def extractAllStep (ctx : ExtractCtx) (parse : String → Option Json)
    (st : List (String × Option String) × List (String × List String))
    (spec : ExtractSpec) :
    List (String × Option String) × List (String × List String) :=
  let values := st.1
      let expanded_values := st.2
      let raw_value := extract_single ctx spec
      if spec.is_json_cast || spec.expand_array then
        match raw_value with
        | some raw =>
            match parse raw with
            | some json_val =>
                let target :=
                  match spec.json_path with
                  | some path => navigate_json_path json_val path
                  | none => some json_val
                match target with
                | some val =>
                    if spec.expand_array then
                      match val with
                      | .arr a =>
                          let expanded :=
                            match spec.array_field with
                            | some field =>
                                a.filterMap
                                  (fun item => (item.getKey field).map jsonValueToCell)
                            | none => a.map jsonValueToCell
                          (insertOverwrite values spec.aliasName none,
                           insertOverwrite expanded_values spec.aliasName expanded)
                      | other =>
                          (insertOverwrite values spec.aliasName
                            (some (jsonSerialize other)), expanded_values)
                    else
                      (insertOverwrite values spec.aliasName
                        (some (jsonSerialize val)), expanded_values)
                | none =>
                    (insertOverwrite values spec.aliasName none, expanded_values)
            | none =>
                (insertOverwrite values spec.aliasName raw_value, expanded_values)
        | none => (insertOverwrite values spec.aliasName none, expanded_values)
      else (insertOverwrite values spec.aliasName raw_value, expanded_values)

/-- `extract_all` (extractors.rs): run every spec against the
pre-extracted Document Index.  `parse` stands for
`serde_json::from_str` on the raw extracted string. -/
def extract_all (ctx : ExtractCtx) (parse : String → Option Json)
    (specs : List ExtractSpec) :
    List (String × Option String) × List (String × List String) :=
  specs.foldl (extractAllStep ctx parse) ([], [])

/-- Is the needle a substring of the haystack (`str::contains`)? -/
def listContainsSub (needle : List Char) : List Char → Bool
  | [] => (charsDropPre needle ([] : List Char)).isSome
  | c :: t =>
      (charsDropPre needle (c :: t)).isSome || listContainsSub needle t

/-- `str::contains` on strings. -/
def containsSub (hay needle : String) : Bool :=
  listContainsSub needle.toList hay.toList

/-- Split a character list on newlines, accumulating the current line
reversed. -/
def splitNl : List Char → List Char → List (List Char)
  | cur, [] => [cur.reverse]
  | cur, '\n' :: rest => cur.reverse :: splitNl [] rest
  | cur, c :: rest => splitNl (c :: cur) rest

/-- Strip one trailing carriage return (part of `str::lines`). -/
def stripCr (l : List Char) : List Char :=
  match l.reverse with
  | '\r' :: t => t.reverse
  | _ => l

/-- `str::lines`: split on `\n`, no trailing empty line when the text
ends with a newline, one trailing `\r` stripped per line. -/
def linesOf (s : String) : List String :=
  let parts := splitNl [] s.toList
  let parts :=
    match parts.getLast? with
    | some [] => parts.dropLast
    | _ => parts
  parts.map (fun l => (stripCr l).asString)

/-- `extract_crawl_delay`'s line loop (robots.rs).  State: are we inside
a section whose `User-agent` token matched (`*` counts as a match), and
the first syntactically valid `Crawl-delay` seen outside a matching
section (the `default_delay`).  A valid delay inside a matching section
returns immediately.  `parseNum` stands for `str::parse::<f64>`.  The
source's `if agent == "*" && default_delay.is_none()` block is empty
(only a comment) and has no effect, so it is not modelled. -/
def crawlDelayLoop (parseNum : String → Option Rat) (uaLower : String) :
    List String → Bool → Option Rat → Option Rat
  | [], _, default_delay => default_delay
  | rawLine :: rest, in_matching, dd =>
      let line := strTrim rawLine
      if line.isEmpty || startsWithStr "#" line then
        crawlDelayLoop parseNum uaLower rest in_matching dd
      else
        let lower := lowerStr line
        if startsWithStr "user-agent:" lower then
          let agent := strTrim ((dropPre "user-agent:" lower).getD "")
          crawlDelayLoop parseNum uaLower rest
            (agent = "*" || containsSub uaLower agent) dd
        else if startsWithStr "crawl-delay:" lower then
          match dropPre "crawl-delay:" lower with
          | some delayStr =>
              match parseNum (strTrim delayStr) with
              | some delay =>
                  if in_matching then some delay
                  else if dd.isNone then
                    crawlDelayLoop parseNum uaLower rest in_matching (some delay)
                  else crawlDelayLoop parseNum uaLower rest in_matching dd
              | none => crawlDelayLoop parseNum uaLower rest in_matching dd
          | none => crawlDelayLoop parseNum uaLower rest in_matching dd
        else crawlDelayLoop parseNum uaLower rest in_matching dd

/-- `extract_crawl_delay` (robots.rs): `user_agent.to_lowercase()` then
the line loop starting outside any matching section. -/
def extract_crawl_delay (parseNum : String → Option Rat)
    (robots_txt user_agent : String) : Option Rat :=
  crawlDelayLoop parseNum (lowerStr user_agent) (linesOf robots_txt) false none

/-- `extract_sitemaps` (robots.rs): every `Sitemap:` directive
(case-insensitive on the key), sliced after the 8-byte prefix of the
original trimmed line. -/
def extract_sitemaps (robots_txt : String) : List String :=
  (linesOf robots_txt).filterMap
    (fun rawLine =>
      let line := strTrim rawLine
      let lower := lowerStr line
      if startsWithStr "sitemap:" lower then
        some (strTrim ((line.toList.drop 8).asString))
      else none)

/-- A robots cache entry (`CachedRobots`, robots.rs).  `fetched_at` is
in seconds (`Instant` with `elapsed().as_secs()`). -/
structure CachedRobots where
  robots_txt : String
  crawl_delay : Option Rat
  sitemaps : List String
  fetched_at : Nat

/-- `RobotsCheckResult` (robots.rs). -/
structure RobotsCheckResult where
  allowed : Bool
  crawl_delay : Option Rat
  sitemaps : List String

/-- The library calls of the robots checker: `str::parse::<f64>` and
`texting_robots::Robot::new(ua, txt).map(|r| r.allowed(url))` (the
`Option` is `Robot::new` failing). -/
structure RobotsLib where
  parseNum : String → Option Rat
  robotAllowed : String → String → String → Option Bool

/-- `RobotsCache::check_cached` (robots.rs): re-evaluate the stored raw
text against the URL and user agent; no fetch. -/
def check_cached (lib : RobotsLib) (cached : CachedRobots)
    (url user_agent : String) : RobotsCheckResult :=
  { allowed := (lib.robotAllowed user_agent cached.robots_txt url).getD true
    crawl_delay := cached.crawl_delay
    sitemaps := cached.sitemaps }

/-- The fetch-and-parse path of `check_blocking` (robots.rs): fetch
`{scheme}://{domain}/robots.txt` (`none` = non-2xx or transport error,
yielding empty text), parse delay and sitemaps, evaluate allow-ness,
store the entry.  The third component records that an HTTP request was
issued. -/
def robotsFetchPath (lib : RobotsLib) (fetch : String → Option String)
    (cache : List (String × CachedRobots)) (scheme domain url user_agent : String)
    (now : Nat) :
    RobotsCheckResult × List (String × CachedRobots) × Bool :=
  let robots_url := scheme ++ "://" ++ domain ++ "/robots.txt"
  let robots_txt := (fetch robots_url).getD ""
  let crawl_delay := extract_crawl_delay lib.parseNum robots_txt user_agent
  let sitemaps := extract_sitemaps robots_txt
  let allowed := (lib.robotAllowed user_agent robots_txt url).getD true
  let cached : CachedRobots :=
    { robots_txt := robots_txt
      crawl_delay := crawl_delay
      sitemaps := sitemaps
      fetched_at := now }
  (⟨allowed, crawl_delay, sitemaps⟩, alistSet cache domain cached, true)

/-- `RobotsCache::check_blocking` (robots.rs).  `urlParsed` is the
`url::Url::parse` result (scheme and `host_str()`); an unparsable URL or
a missing host allows everything without touching the cache.  A cache
entry younger than 3600 s is re-evaluated without fetching; otherwise
the fetch path runs.  Returns the result, the updated cache, and
whether an HTTP request was issued. -/
def check_blocking (lib : RobotsLib) (fetch : String → Option String)
    (cache : List (String × CachedRobots))
    (urlParsed : Option (String × Option String)) (url user_agent : String)
    (now : Nat) :
    RobotsCheckResult × List (String × CachedRobots) × Bool :=
  match urlParsed with
  | none => (⟨true, none, []⟩, cache, false)
  | some (scheme, hostStr) =>
      match hostStr with
      | none => (⟨true, none, []⟩, cache, false)
      | some h =>
          let domain := lowerStr h
          match alistGet cache domain with
          | some cached =>
              if now - cached.fetched_at < 3600 then
                (check_cached lib cached url user_agent, cache, false)
              else
                robotsFetchPath lib fetch cache scheme domain url user_agent now
          | none =>
              robotsFetchPath lib fetch cache scheme domain url user_agent now

/-- `check_robots_ffi_inner` (ffi.rs): every FFI robots check constructs
a fresh `RobotsCache::new()` — an empty cache — and calls
`check_blocking` on it. -/
def check_robots_ffi_inner (lib : RobotsLib) (fetch : String → Option String)
    (urlParsed : Option (String × Option String)) (url user_agent : String)
    (now : Nat) :
    RobotsCheckResult × List (String × CachedRobots) × Bool :=
  check_blocking lib fetch [] urlParsed url user_agent now

/-- A quick-xml event as consumed by `parse_sitemap` (sitemap.rs); text
is already unescaped, `otherEvent` stands for the event kinds the
source ignores (Empty, CData, comments, declarations, ...). -/
inductive XmlEvent where
  | start (tag : String)
  | endTag (tag : String)
  | text (s : String)
  | eof
  | err (msg : String)
  | otherEvent

/-- `SitemapEntry` (sitemap.rs). -/
structure SitemapEntry where
  url : String
  lastmod : Option String
  changefreq : Option String
  priority : Option Rat

/-- `SitemapIndexEntry` (sitemap.rs). -/
structure SitemapIndexEntry where
  url : String
  lastmod : Option String

/-- `SitemapResult` (sitemap.rs). -/
structure SitemapResult where
  urls : List SitemapEntry
  sitemaps : List SitemapIndexEntry
  errors : List String

/-- The mutable locals of the `parse_sitemap` loop. -/
structure SmState where
  urls : List SitemapEntry
  sitemaps : List SitemapIndexEntry
  errors : List String
  current_tag : String
  in_url : Bool
  in_sitemap : Bool
  url : String
  lastmod : Option String
  changefreq : Option String
  priority : Option Rat

/-- The event loop of `parse_sitemap` (sitemap.rs).  `Eof` and a parse
error break the loop (the error appending a non-fatal message);
`parseNum` stands for `str::parse::<f64>` on `priority` text. -/
def sitemapLoop (parseNum : String → Option Rat) :
    List XmlEvent → SmState → SmState
  | [], st => st
  | ev :: rest, st =>
      match ev with
      | .start tag =>
          let st := { st with current_tag := tag }
          let st :=
            if tag = "url" then
              { st with in_url := true, url := "", lastmod := none,
                        changefreq := none, priority := none }
            else if tag = "sitemap" then
              { st with in_sitemap := true, url := "", lastmod := none }
            else st
          sitemapLoop parseNum rest st
      | .endTag tag =>
          let st :=
            if tag = "url" && st.in_url then
              let st :=
                if st.url ≠ "" then
                  { st with urls := st.urls ++
                      [⟨st.url, st.lastmod, st.changefreq, st.priority⟩] }
                else st
              { st with in_url := false }
            else if tag = "sitemap" && st.in_sitemap then
              let st :=
                if st.url ≠ "" then
                  { st with sitemaps := st.sitemaps ++ [⟨st.url, st.lastmod⟩] }
                else st
              { st with in_sitemap := false }
            else st
          sitemapLoop parseNum rest { st with current_tag := "" }
      | .text s =>
          let st :=
            if st.in_url || st.in_sitemap then
              if st.current_tag = "loc" then { st with url := s }
              else if st.current_tag = "lastmod" then { st with lastmod := some s }
              else if st.current_tag = "changefreq" && st.in_url then
                { st with changefreq := some s }
              else if st.current_tag = "priority" && st.in_url then
                { st with priority := parseNum s }
              else st
            else st
          sitemapLoop parseNum rest st
      | .eof => st
      | .err e =>
          { st with errors := st.errors ++ ["XML parse error: " ++ e] }
      | .otherEvent => sitemapLoop parseNum rest st

/-- `parse_sitemap` (sitemap.rs) over the tokenizer's event stream. -/
def parse_sitemap (parseNum : String → Option Rat) (events : List XmlEvent) :
    SitemapResult :=
  let st :=
    sitemapLoop parseNum events
      ⟨[], [], [], "", false, false, "", none, none, none⟩
  ⟨st.urls, st.sitemaps, st.errors⟩

/-- The outcome of `agent.get(url).call()` plus the body read in
`fetch_sitemap_internal_ureq`: a successful 2xx body (already
tokenized), a body-read failure, a non-success status, or a transport
error. -/
inductive FetchOutcome where
  | success (events : List XmlEvent)
  | readFail (msg : String)
  | httpFail (status : String)
  | callFail (msg : String)

mutual

/-- `fetch_sitemap_internal_ureq` (sitemap.rs): depth-guarded recursive
sitemap fetch.  Beyond `max_depth` the result is empty; fetch failures
record one error; when `recursive` is set and the parse found child
sitemaps, each child is fetched at depth+1 and merged, otherwise the
child references are returned as residual `sitemaps`. -/
def fetch_sitemap_internal (fetch : String → FetchOutcome)
    (parseNum : String → Option Rat) (url : String) (recursive : Bool)
    (max_depth current_depth : Nat) : SitemapResult :=
  if h : current_depth > max_depth then ⟨[], [], []⟩
  else
    match fetch url with
    | .callFail e => ⟨[], [], ["Failed to fetch " ++ url ++ ": " ++ e]⟩
    | .httpFail status => ⟨[], [], ["HTTP " ++ status ++ " for " ++ url]⟩
    | .readFail e => ⟨[], [], ["Failed to read " ++ url ++ ": " ++ e]⟩
    | .success events =>
        let parsed := parse_sitemap parseNum events
        let base : SitemapResult := ⟨parsed.urls, [], parsed.errors⟩
        if recursive && !parsed.sitemaps.isEmpty then
          fetchChildren fetch parseNum recursive max_depth (current_depth + 1)
            parsed.sitemaps base
        else
          { base with sitemaps := base.sitemaps ++ parsed.sitemaps }
termination_by (max_depth + 2 - current_depth, 0, 0)

/-- The child loop of `fetch_sitemap_internal_ureq`: fetch each child
sitemap at the next depth and extend urls, sitemaps and errors. -/
def fetchChildren (fetch : String → FetchOutcome)
    (parseNum : String → Option Rat) (recursive : Bool)
    (max_depth childDepth : Nat) :
    List SitemapIndexEntry → SitemapResult → SitemapResult
  | [], acc => acc
  | entry :: rest, acc =>
      let child :=
        fetch_sitemap_internal fetch parseNum entry.url recursive max_depth
          childDepth
      fetchChildren fetch parseNum recursive max_depth childDepth rest
        { acc with urls := acc.urls ++ child.urls,
                   sitemaps := acc.sitemaps ++ child.sitemaps,
                   errors := acc.errors ++ child.errors }
termination_by l acc => (max_depth + 2 - childDepth, 1, l.length)
decreasing_by
  · exact Prod.Lex.right _ (Prod.Lex.left _ _ (by omega))
  · exact Prod.Lex.right _ (Prod.Lex.right _ (by simp))

end

/-- All per-type value lists of an accumulator are non-empty. -/
def NonemptyVals (m : List (String × List Json)) : Prop :=
  ∀ p ∈ m, p.2 ≠ []

/-- `updEntry` preserves non-emptiness of every per-type list. -/
theorem updEntry_nonempty (m : List (String × List Json)) (k : String)
    (v : Json) (h : NonemptyVals m) : NonemptyVals (updEntry m k v) := by
  induction m with
  | nil =>
    intro p hp
    simp [updEntry] at hp
    simp [hp]
  | cons q rest ih =>
    obtain ⟨k', vs⟩ := q
    intro p hp
    simp only [updEntry] at hp
    split at hp
    · rcases List.mem_cons.mp hp with h1 | h1
      · subst h1; simp
      · exact h p (List.mem_cons_of_mem _ h1)
    · rcases List.mem_cons.mp hp with h1 | h1
      · subst h1
        exact h (k', vs) (List.mem_cons_self _ _)
      · exact ih (fun q hq => h q (List.mem_cons_of_mem _ hq)) p h1

/-- A fold of `updEntry` insertions preserves the invariant. -/
theorem foldlUpd_nonempty (ts : List String) (f : String → String) (x : Json) :
    ∀ m, NonemptyVals m →
      NonemptyVals (ts.foldl (fun m t => updEntry m (f t) x) m) := by
  induction ts with
  | nil => intro m h; simpa using h
  | cons t rest ih =>
    intro m h
    simp only [List.foldl_cons]
    exact ih _ (updEntry_nonempty m (f t) x h)

/-- `collect_typed_objects` preserves the invariant that every
accumulated per-type list is non-empty. -/
theorem collectTyped_nonempty :
    ∀ (value : Json) (acc : List (String × List Json)),
      NonemptyVals acc → NonemptyVals (collectTyped value acc) := by
  refine collectTyped.induct
    (fun value acc =>
      NonemptyVals acc → NonemptyVals (collectTyped value acc))
    (fun values acc =>
      NonemptyVals acc → NonemptyVals (collectTypedList values acc))
    ?_ ?_ ?_ ?_ ?_ ?_
  · intro acc fields typeVal htype ih hacc
    rw [collectTyped.eq_def]
    simp only [htype]
    split
    · exact foldlUpd_nonempty _ _ _ _ (ih _ (by assumption) hacc)
    · exact foldlUpd_nonempty _ _ _ _ hacc
  · intro acc fields htype ih hacc
    rw [collectTyped.eq_def]
    simp only [htype]
    split
    · exact ih _ (by assumption) hacc
    · exact hacc
  · intro acc elems ih hacc
    rw [collectTyped.eq_def]
    exact ih hacc
  · intro value acc hobj harr hacc
    rw [collectTyped.eq_def]
    split
    · exact absurd rfl (hobj _)
    · exact absurd rfl (harr _)
    · exact hacc
  · intro acc hacc
    rw [collectTypedList.eq_def]
    exact hacc
  · intro acc v rest ih1 ih2 hacc
    rw [collectTypedList.eq_def]
    exact ih2 (ih1 hacc)

/-- The JSON-LD block fold preserves the invariant. -/
theorem jsonldFold_nonempty (blocks : List (Option Json)) :
    ∀ acc, NonemptyVals acc →
      NonemptyVals
        (blocks.foldl
          (fun acc block =>
            match block with
            | some json => collectTyped json acc
            | none => acc)
          acc) := by
  induction blocks with
  | nil => intro acc h; simpa using h
  | cons b rest ih =>
    intro acc h
    simp only [List.foldl_cons]
    cases b with
    | some json => exact ih _ (collectTyped_nonempty json acc h)
    | none => exact ih _ h

/-- Lookup in the arrayified map comes from a collected per-type
list. -/
theorem alistGet_map_arr (m : List (String × List Json)) (k : String)
    (v : Json)
    (h : alistGet (m.map (fun p => (p.1, Json.arr p.2))) k = some v) :
    ∃ l, v = Json.arr l ∧ (k, l) ∈ m := by
  induction m with
  | nil => simp [alistGet] at h
  | cons q rest ih =>
    obtain ⟨k', vs⟩ := q
    simp only [List.map_cons, alistGet] at h
    split at h
    · rename_i hk
      injection h with h
      subst h
      exact ⟨vs, rfl, by rw [hk]; exact List.mem_cons_self _ _⟩
    · obtain ⟨l, hl, hm⟩ := ih h
      exact ⟨l, hl, List.mem_cons_of_mem _ hm⟩

/-- The microdata element fold preserves the invariant. -/
theorem microdataFold_nonempty (els : List Node) :
    ∀ acc, NonemptyVals acc →
      NonemptyVals
        (els.foldl
          (fun acc el =>
            if hasAttr el "itemscope" && hasAttr el "itemtype" then
              match getAttr el "itemtype" with
              | some itemtype =>
                  let typeName := lastSlashSeg itemtype
                  let props :=
                    (strictDescs el).foldl
                      (fun ps p =>
                        match getAttr p.2 "itemprop" with
                        | some propName =>
                            insertOverwrite ps propName (.str (mdPropValue p.2))
                        | none => ps)
                      []
                  updEntry acc typeName (.obj props)
              | none => acc
            else acc)
          acc) := by
  induction els with
  | nil => intro acc h; simpa using h
  | cons el rest ih =>
    intro acc h
    simp only [List.foldl_cons]
    split
    · split
      · exact ih _ (updEntry_nonempty _ _ _ h)
      · exact ih _ h
    · exact ih _ h

/-- Claim C4: for every HTML input, every value in the JSON-LD index
and in the microdata index consumed by the spec engine is a non-empty
JSON array, even when only a single item of that type exists in the
document. -/
theorem spec_c4_arrayification (blocks : List (Option Json)) (doc : List Node)
    (k : String) (v : Json) :
    (alistGet (extract_jsonld_objects blocks) k = some v →
      ∃ l, v = Json.arr l ∧ l ≠ []) ∧
    (alistGet (extract_microdata_engine doc) k = some v →
      ∃ l, v = Json.arr l ∧ l ≠ []) := by
  constructor
  · intro h
    simp only [extract_jsonld_objects] at h
    obtain ⟨l, hl, hm⟩ := alistGet_map_arr _ _ _ h
    refine ⟨l, hl, ?_⟩
    exact jsonldFold_nonempty blocks []
      (by intro p hp; exact absurd hp (List.not_mem_nil p)) (k, l) hm
  · intro h
    simp only [extract_microdata_engine] at h
    obtain ⟨l, hl, hm⟩ := alistGet_map_arr _ _ _ h
    refine ⟨l, hl, ?_⟩
    exact microdataFold_nonempty (allElems doc) []
      (by intro p hp; exact absurd hp (List.not_mem_nil p)) (k, l) hm

/-- Witness for C4 at a concrete document: a single JSON-LD `Thing` and
a single microdata `Thing` each sit in a one-element array. -/
theorem spec_c4_arrayification_witness :
    (∃ l, Json.arr [Json.obj [("@type", Json.str "Thing"), ("x", Json.str "y")]]
        = Json.arr l ∧ l ≠ []) ∧
    (∃ l, Json.arr [Json.obj [("name", Json.str "N")]] = Json.arr l ∧ l ≠ []) := by
  have h1 :
      alistGet
        (extract_jsonld_objects
          [some (.obj [("@type", .str "Thing"), ("x", .str "y")])])
        "Thing" =
      some (Json.arr [Json.obj [("@type", Json.str "Thing"), ("x", Json.str "y")]]) := by
    have hc : cleanTypeName "Thing" = "Thing" := by decide
    simp [extract_jsonld_objects, collectTyped, alistGet, typeStrings, hc,
      updEntry]
  have h2 :
      alistGet
        (extract_microdata_engine
          [Node.elem "div" [("itemscope", ""), ("itemtype", "https://schema.org/Thing")]
            [Node.elem "span" [("itemprop", "name")] [Node.text "N"]]])
        "Thing" =
      some (Json.arr [Json.obj [("name", Json.str "N")]]) := by rfl
  exact
    ⟨(spec_c4_arrayification
        [some (.obj [("@type", .str "Thing"), ("x", .str "y")])]
        [Node.elem "div" [("itemscope", ""), ("itemtype", "https://schema.org/Thing")]
          [Node.elem "span" [("itemprop", "name")] [Node.text "N"]]]
        "Thing"
        (Json.arr [Json.obj [("@type", Json.str "Thing"), ("x", Json.str "y")]])).1 h1,
     (spec_c4_arrayification
        [some (.obj [("@type", .str "Thing"), ("x", .str "y")])]
        [Node.elem "div" [("itemscope", ""), ("itemtype", "https://schema.org/Thing")]
          [Node.elem "span" [("itemprop", "name")] [Node.text "N"]]]
        "Thing"
        (Json.arr [Json.obj [("name", Json.str "N")]])).2 h2⟩

/-- The COALESCE loop is first-non-null over the alternatives in
order. -/
theorem tryAlternatives_eq_findSome (ctx : ExtractCtx) (l : List ExtractSpec) :
    tryAlternatives ctx l = l.findSome? (fun alt => extract_single ctx alt) := by
  induction l with
  | nil => simp [tryAlternatives, List.findSome?]
  | cons a rest ih =>
    simp only [tryAlternatives, List.findSome?]
    cases extract_single ctx a with
    | some v => rfl
    | none => simpa using ih

/-- Claim C9: when the primary source yields a non-null value the
alternatives are not consulted (the result is the primary's value,
whatever the alternatives are); when the primary yields null, the
result is the first non-null alternative, evaluated in order. -/
theorem spec_c9_alternatives (ctx : ExtractCtx) (spec : ExtractSpec) :
    (∀ v, extractPrimary ctx spec = some v → extract_single ctx spec = some v) ∧
    (extractPrimary ctx spec = none →
      extract_single ctx spec =
        (ExtractSpec.alternatives spec).findSome?
          (fun alt => extract_single ctx alt)) := by
  obtain ⟨source, path, selector, accessor, return_text, a, alts, c, e, f, p⟩ := spec
  constructor
  · intro v hv
    simp only [extract_single, hv]
    simp
  · intro hnone
    simp only [extract_single, hnone, ExtractSpec.alternatives]
    cases halts : alts with
    | nil => simp [List.findSome?]
    | cons alt rest =>
      simp only [Option.isNone_none, List.isEmpty_cons, Bool.not_false,
        Bool.and_self]
      rw [← halts, ← tryAlternatives_eq_findSome]
      cases tryAlternatives ctx alts <;> rfl

/-- Witness for C9: a primary OpenGraph hit is returned untouched even
with alternatives present; a primary miss falls through to the first
non-null alternative. -/
theorem spec_c9_alternatives_witness :
    extract_single
      ⟨[], [], [("title", "T"), ("alt", "A")], [], [], fun _ _ => none⟩
      (.mk "og" ["title"] none none true "x"
        [.mk "og" ["alt"] none none true "x" [] false false none none]
        false false none none) = some "T" ∧
    extract_single
      ⟨[], [], [("title", "T"), ("alt", "A")], [], [], fun _ _ => none⟩
      (.mk "og" ["missing"] none none true "x"
        [.mk "og" ["alt"] none none true "x" [] false false none none]
        false false none none) = some "A" := by
  constructor
  · exact
      (spec_c9_alternatives
        ⟨[], [], [("title", "T"), ("alt", "A")], [], [], fun _ _ => none⟩
        (.mk "og" ["title"] none none true "x"
          [.mk "og" ["alt"] none none true "x" [] false false none none]
          false false none none)).1 "T" rfl
  · have h :=
      (spec_c9_alternatives
        ⟨[], [], [("title", "T"), ("alt", "A")], [], [], fun _ _ => none⟩
        (.mk "og" ["missing"] none none true "x"
          [.mk "og" ["alt"] none none true "x" [] false false none none]
          false false none none)).2 rfl
    rw [h]
    rfl

/-- Lookup after overwriting the same key. -/
theorem alistGet_insertOverwrite_eq {α : Type} (m : List (String × α))
    (k : String) (v : α) : alistGet (insertOverwrite m k v) k = some v := by
  induction m with
  | nil => simp [insertOverwrite, alistGet]
  | cons q rest ih =>
    obtain ⟨k', v'⟩ := q
    simp only [insertOverwrite]
    split
    · rename_i hk
      simp [alistGet, hk]
    · simp only [alistGet]
      split
      · rename_i h1 h2
        exact absurd h2 h1
      · exact ih

/-- Lookup under a different key is unchanged by an overwrite. -/
theorem alistGet_insertOverwrite_ne {α : Type} (m : List (String × α))
    (k k' : String) (v : α) (h : k ≠ k') :
    alistGet (insertOverwrite m k v) k' = alistGet m k' := by
  induction m with
  | nil => simp [insertOverwrite, alistGet, h]
  | cons q rest ih =>
    obtain ⟨k0, v0⟩ := q
    simp only [insertOverwrite]
    split
    · rename_i hk
      subst hk
      simp [alistGet, h]
    · simp only [alistGet]
      split
      · rfl
      · exact ih

/-- One `extract_all` step only touches the spec's own alias in the
`values` map. -/
theorem extractAllStep_values_ne (ctx : ExtractCtx)
    (parse : String → Option Json)
    (st : List (String × Option String) × List (String × List String))
    (spec : ExtractSpec) (k : String) (h : ExtractSpec.aliasName spec ≠ k) :
    alistGet (extractAllStep ctx parse st spec).1 k = alistGet st.1 k := by
  simp only [extractAllStep]
  split
  · split
    · split
      · split
        · split
          · split
            · exact alistGet_insertOverwrite_ne _ _ _ _ h
            · exact alistGet_insertOverwrite_ne _ _ _ _ h
          · exact alistGet_insertOverwrite_ne _ _ _ _ h
        · exact alistGet_insertOverwrite_ne _ _ _ _ h
      · exact alistGet_insertOverwrite_ne _ _ _ _ h
    · exact alistGet_insertOverwrite_ne _ _ _ _ h
  · exact alistGet_insertOverwrite_ne _ _ _ _ h

/-- A fold of steps over specs with other aliases leaves a value-map
entry unchanged. -/
theorem extractAll_fold_preserves (ctx : ExtractCtx)
    (parse : String → Option Json) (l : List ExtractSpec) (k : String)
    (h : ∀ s ∈ l, ExtractSpec.aliasName s ≠ k) :
    ∀ st, alistGet (l.foldl (extractAllStep ctx parse) st).1 k =
      alistGet st.1 k := by
  induction l with
  | nil => intro st; simp
  | cons s rest ih =>
    intro st
    simp only [List.foldl_cons]
    rw [ih (fun s hs => h s (List.mem_cons_of_mem _ hs))]
    exact extractAllStep_values_ne ctx parse st s k (h s (List.mem_cons_self _ _))

/-- Split a list at the last occurrence of a member. -/
theorem mem_split_last {α : Type} {a : α} {l : List α} (h : a ∈ l) :
    ∃ pre post, l = pre ++ a :: post ∧ a ∉ post := by
  induction l with
  | nil => simp at h
  | cons b t ih =>
    rcases Classical.em (a ∈ t) with ht | ht
    · obtain ⟨pre, post, heq, hpost⟩ := ih ht
      exact ⟨b :: pre, post, by simp [heq], hpost⟩
    · rcases List.mem_cons.mp h with hab | hat
      · exact ⟨[], t, by simp [hab], ht⟩
      · exact absurd hat ht

/-- Claim C10: a spec with `is_json_cast` or `expand_array` whose raw
extracted value is a non-null string that fails to parse as JSON gets
the raw string back unchanged under its alias. -/
theorem spec_c10_json_parse_fallback (ctx : ExtractCtx)
    (parse : String → Option Json) (specs : List ExtractSpec)
    (spec : ExtractSpec) (raw : String) (hmem : spec ∈ specs)
    (huniq : ∀ s ∈ specs, s ≠ spec →
      ExtractSpec.aliasName s ≠ ExtractSpec.aliasName spec)
    (hcast : (ExtractSpec.is_json_cast spec || ExtractSpec.expand_array spec) = true)
    (hraw : extract_single ctx spec = some raw)
    (hparse : parse raw = none) :
    alistGet (extract_all ctx parse specs).1 (ExtractSpec.aliasName spec) =
      some (some raw) := by
  obtain ⟨pre, post, heq, hpost⟩ := mem_split_last hmem
  subst heq
  have hpostne : ∀ s ∈ post, ExtractSpec.aliasName s ≠ ExtractSpec.aliasName spec := by
    intro s hs
    refine huniq s (by simp [hs]) ?_
    intro hss
    exact hpost (hss ▸ hs)
  unfold extract_all
  rw [List.foldl_append, List.foldl_cons]
  rw [extractAll_fold_preserves ctx parse post _ hpostne]
  have hstep :
      (extractAllStep ctx parse (pre.foldl (extractAllStep ctx parse) ([], []))
        spec).1 =
      insertOverwrite (pre.foldl (extractAllStep ctx parse) ([], [])).1
        (ExtractSpec.aliasName spec) (some raw) := by
    simp only [extractAllStep, hraw, hparse, hcast, if_true]
  rw [hstep, alistGet_insertOverwrite_eq]

/-- Witness for C10: an OpenGraph value `notjson` under a JSON cast
comes back verbatim. -/
theorem spec_c10_json_parse_fallback_witness :
    alistGet
      (extract_all ⟨[], [], [("data", "notjson")], [], [], fun _ _ => none⟩
        (fun _ => none)
        [.mk "og" ["data"] none none true "d" [] true false none none]).1
      "d" = some (some "notjson") := by
  have h :=
    spec_c10_json_parse_fallback
      ⟨[], [], [("data", "notjson")], [], [], fun _ _ => none⟩
      (fun _ => none)
      [.mk "og" ["data"] none none true "d" [] true false none none]
      (.mk "og" ["data"] none none true "d" [] true false none none)
      "notjson"
      (List.mem_singleton.mpr rfl)
      (by
        intro s hs hne
        exact absurd (List.mem_singleton.mp hs) hne)
      rfl rfl rfl
  exact h

/-- `Json.getKey` on an object is association-list lookup. -/
theorem getKey_obj (f : List (String × Json)) (k : String) :
    Json.getKey (.obj f) k = alistGet f k := by
  show Json.getKey.lookupField f k = alistGet f k
  induction f with
  | nil => rfl
  | cons q rest ih =>
    obtain ⟨k', v⟩ := q
    simp only [Json.getKey.lookupField, alistGet]
    split <;> simp [ih]

/-- Lookup distributes over append. -/
theorem alistGet_append {α : Type} (m1 m2 : List (String × α)) (k : String) :
    alistGet (m1 ++ m2) k =
      match alistGet m1 k with
      | some v => some v
      | none => alistGet m2 k := by
  induction m1 with
  | nil => simp [alistGet]
  | cons q rest ih =>
    obtain ⟨k', v⟩ := q
    simp only [List.cons_append, alistGet]
    split <;> simp [ih]

/-- Lookup of the modified key maps the stored value. -/
theorem alistGet_alistModify_eq {α : Type} (m : List (String × α)) (k : String)
    (f : α → α) :
    alistGet (alistModify m k f) k = (alistGet m k).map f := by
  induction m with
  | nil => simp [alistModify, alistGet]
  | cons q rest ih =>
    obtain ⟨k', v⟩ := q
    simp only [alistModify]
    split
    · rename_i hk
      simp [alistGet, hk]
    · rename_i hk
      simp only [alistGet]
      split
      · rename_i h2
        exact absurd h2 hk
      · exact ih

/-- Lookup of other keys is unchanged by a modify. -/
theorem alistGet_alistModify_ne {α : Type} (m : List (String × α)) (k k' : String)
    (f : α → α) (h : k ≠ k') :
    alistGet (alistModify m k f) k' = alistGet m k' := by
  induction m with
  | nil => simp [alistModify]
  | cons q rest ih =>
    obtain ⟨k0, v⟩ := q
    simp only [alistModify]
    split
    · rename_i hk
      subst hk
      simp [alistGet, h]
    · simp only [alistGet]
      split
      · rfl
      · exact ih

/-- The accumulate semantics of `mdAccumInsert` under its own key. -/
theorem mdAccumInsert_get_eq (m : List (String × Json)) (k : String) (v : Json) :
    alistGet (mdAccumInsert m k v) k =
      some
        (match alistGet m k with
         | none => v
         | some (.arr a) => .arr (a ++ [v])
         | some w => .arr [w, v]) := by
  unfold mdAccumInsert
  cases hg : alistGet m k with
  | none =>
    simp only [hg]
    rw [alistGet_append]
    simp [hg, alistGet]
  | some w =>
    simp only [hg]
    rw [alistGet_alistModify_eq, hg]
    cases w <;> rfl

/-- Other keys are unchanged by `mdAccumInsert`. -/
theorem mdAccumInsert_get_ne (m : List (String × Json)) (k k' : String)
    (v : Json) (h : k ≠ k') :
    alistGet (mdAccumInsert m k v) k' = alistGet m k' := by
  unfold mdAccumInsert
  cases hg : alistGet m k with
  | none =>
    rw [alistGet_append]
    cases hg' : alistGet m k' with
    | some w => rfl
    | none => simp [alistGet, h]
  | some w => exact alistGet_alistModify_ne m k k' _ h

/-- The value stored for a kept `[itemprop]` descendant: nested items
recurse, others take the scalar rule. -/
def itemPropValue (d : Node) : Json :=
  if hasAttr d "itemscope" then extract_item d else Json.str (scalarPropValue d)

/-- The values the `extract_item` loop accumulates for a property name
`k`, in document order: the descendants of the walk whose `itemprop` is
`k` and whose id-attribute ancestor walk (with the item's `id`
attribute `eid`) does not meet a nested `[itemscope]` first. -/
def loopVals (eid : Option String) (k : String)
    (l : List (List Node × Node)) : List Json :=
  l.filterMap
    (fun p =>
      if ancestorScopeWalk eid p.1 then none
      else if getAttr p.2 "itemprop" = some k then some (itemPropValue p.2)
      else none)

/-- Replay of the duplicate-merge on a single key: `none` holds the
first value scalar, a second value turns it into a two-element array,
later values push. -/
def mergeVals : Option Json → List Json → Option Json
  | prev, [] => prev
  | none, v :: vs => mergeVals (some v) vs
  | some (.arr a), v :: vs => mergeVals (some (.arr (a ++ [v]))) vs
  | some w, v :: vs => mergeVals (some (.arr [w, v])) vs

/-- The `extract_item` property loop computes, on every key, the
duplicate-merge of the values of the matching descendants kept by the
id-attribute ancestor walk, over the starting map's entry. -/
theorem extract_item_loop_acc (e : Node) :
    ∀ (l : List (List Node × Node)) (item : List (String × Json))
      (h : ∀ p ∈ l, sizeOf p.2 < sizeOf e) (k : String),
      alistGet (extract_item_loop e l item h) k =
        mergeVals (alistGet item k) (loopVals (getAttr e "id") k l) := by
  intro l
  induction l with
  | nil =>
    intro item h k
    simp [extract_item_loop, loopVals, mergeVals]
  | cons p rest ih =>
    intro item h k
    obtain ⟨between, d⟩ := p
    rw [extract_item_loop]
    split
    · rename_i hskip
      rw [ih]
      simp only [loopVals, List.filterMap_cons, hskip]
      simp [loopVals]
    · rename_i hskip
      simp only [Bool.not_eq_true] at hskip
      split
      · rename_i hprop
        rw [ih]
        simp only [loopVals, List.filterMap_cons, hskip, hprop]
        simp [loopVals]
      · rename_i propName hprop
        rw [ih]
        by_cases hkk : propName = k
        · subst hkk
          rw [mdAccumInsert_get_eq]
          simp only [loopVals, List.filterMap_cons, hskip, hprop]
          simp only [Bool.false_eq_true, if_false, if_pos rfl]
          have hval :
              (if hasAttr d "itemscope" = true then extract_item d
               else Json.str (scalarPropValue d)) = itemPropValue d := rfl
          rw [hval]
          cases halist : alistGet item propName with
          | none => simp [mergeVals]
          | some w => cases w <;> simp [mergeVals]
        · rw [mdAccumInsert_get_ne _ _ _ _ hkk]
          simp only [loopVals, List.filterMap_cons, hskip]
          have : (getAttr d "itemprop" = some k) = False := by
            simp [hprop]
            intro hc
            exact absurd hc hkk
          simp [this, loopVals]

/-- On every property name other than `@type` / `@id`, `extract_item`
is the duplicate-merge of the values of the matching descendants kept
by the id-attribute ancestor walk. -/
theorem extract_item_getKey (e : Node) (k : String) (hk1 : k ≠ "@type")
    (hk2 : k ≠ "@id") :
    Json.getKey (extract_item e) k =
      mergeVals none
        (loopVals (getAttr e "id") k
          ((strictDescs e).filter (fun p => hasAttr p.2 "itemprop"))) := by
  rw [extract_item]
  rw [getKey_obj, extract_item_loop_acc]
  have h0 :
      alistGet
        (match getAttr e "itemtype" with
         | some itemtype => [("@type", Json.str (lastSlashSeg itemtype))]
         | none => []) k = none := by
    split
    · simp [alistGet]
      intro hc
      exact absurd hc.symm hk1
    · rfl
  split
  · rename_i itemid hid
    rw [alistGet_insertOverwrite_ne _ _ _ _ (fun hc => hk2 hc.symm), h0]
  · rw [h0]

/-- Claim C1 (amended): in the standalone microdata extractor, a
property key other than `@type` / `@id` appears in an item's map only
through some `[itemprop]` descendant carrying that name that is kept by
the id-attribute ancestor walk: walking the ancestors nearest-first,
the loop breaks as soon as an ancestor's `id` attribute equals the
item's (`None == None` at the very first element ancestor when neither
carries `id`), and only an `[itemscope]` ancestor met before that break
excludes the descendant. In an item without an `id` attribute the walk
therefore breaks immediately and excludes nothing: properties of nested
scopes leak into the parent item. -/
theorem spec_c1_ancestor_walk (e : Node) (k : String) (v : Json)
    (hk1 : k ≠ "@type") (hk2 : k ≠ "@id")
    (hget : Json.getKey (extract_item e) k = some v) :
    ∃ p ∈ strictDescs e, getAttr p.2 "itemprop" = some k ∧
      ancestorScopeWalk (getAttr e "id") p.1 = false := by
  rw [extract_item_getKey e k hk1 hk2] at hget
  have hne :
      loopVals (getAttr e "id") k
        ((strictDescs e).filter (fun p => hasAttr p.2 "itemprop")) ≠ [] := by
    intro h0
    rw [h0] at hget
    simp [mergeVals] at hget
  rw [loopVals, Ne, List.filterMap_eq_nil_iff] at hne
  push_neg at hne
  obtain ⟨p, hp, hcond⟩ := hne
  refine ⟨p, (List.mem_filter.mp hp).1, ?_⟩
  by_cases hskip : ancestorScopeWalk (getAttr e "id") p.1 = true
  · rw [if_pos hskip] at hcond
    exact absurd rfl hcond
  · simp only [Bool.not_eq_true] at hskip
    rw [if_neg (by simp [hskip])] at hcond
    by_cases hprop : getAttr p.2 "itemprop" = some k
    · exact ⟨hprop, hskip⟩
    · rw [if_neg hprop] at hcond
      exact absurd rfl hcond

/-- Witness for the amended C1, exhibiting the leak: in an id-less
`Product` containing a nested `Offer` scope, the `price` key of the
Product's map traces back to the `span[itemprop=price]` that lives
inside the Offer — the walk returns `false` on its ancestor chain even
though that chain holds the Offer's `[itemscope]`, because the id
comparison `none = none` breaks the walk at the first ancestor. -/
theorem spec_c1_ancestor_walk_witness :
    ∃ p ∈ strictDescs
        (Node.elem "div" [("itemscope", ""), ("itemtype", "https://schema.org/Product")]
          [Node.elem "span" [("itemprop", "name")] [Node.text "P"],
           Node.elem "div"
             [("itemscope", ""), ("itemtype", "https://schema.org/Offer"),
              ("itemprop", "offers")]
             [Node.elem "span" [("itemprop", "price")] [Node.text "19.99"]]]),
      getAttr p.2 "itemprop" = some "price" ∧
      ancestorScopeWalk
        (getAttr
          (Node.elem "div" [("itemscope", ""), ("itemtype", "https://schema.org/Product")]
            [Node.elem "span" [("itemprop", "name")] [Node.text "P"],
             Node.elem "div"
               [("itemscope", ""), ("itemtype", "https://schema.org/Offer"),
                ("itemprop", "offers")]
               [Node.elem "span" [("itemprop", "price")] [Node.text "19.99"]]])
          "id")
        p.1 = false := by
  refine
    spec_c1_ancestor_walk
      (Node.elem "div" [("itemscope", ""), ("itemtype", "https://schema.org/Product")]
        [Node.elem "span" [("itemprop", "name")] [Node.text "P"],
         Node.elem "div"
           [("itemscope", ""), ("itemtype", "https://schema.org/Offer"),
            ("itemprop", "offers")]
           [Node.elem "span" [("itemprop", "price")] [Node.text "19.99"]]])
      "price" (Json.str "19.99") (by decide) (by decide) ?_
  rw [extract_item_getKey _ _ (by decide) (by decide)]
  rfl

/-- Claim C1 counterexample: in the spec-engine microdata index
(extractors.rs `extract_microdata`), the `Product` item's property map
does contain `price`, although the only `itemprop="price"` descendant
has the nested `Offer` `[itemscope]` strictly between it and the
`Product` element (its nearest scope is the Offer, not the Product). -/
theorem spec_c1_counterexample :
    (alistGet
      (extract_microdata_engine
        [Node.elem "div" [("itemscope", ""), ("itemtype", "https://schema.org/Product")]
          [Node.elem "span" [("itemprop", "name")] [Node.text "P"],
           Node.elem "div"
             [("itemscope", ""), ("itemtype", "https://schema.org/Offer"),
              ("itemprop", "offers")]
             [Node.elem "span" [("itemprop", "price")] [Node.text "19.99"]]]])
      "Product" =
    some (Json.arr
      [Json.obj [("name", Json.str "P"), ("offers", Json.str "19.99"),
                 ("price", Json.str "19.99")]])) ∧
    ((strictDescs
        (Node.elem "div" [("itemscope", ""), ("itemtype", "https://schema.org/Product")]
          [Node.elem "span" [("itemprop", "name")] [Node.text "P"],
           Node.elem "div"
             [("itemscope", ""), ("itemtype", "https://schema.org/Offer"),
              ("itemprop", "offers")]
             [Node.elem "span" [("itemprop", "price")] [Node.text "19.99"]]])).filter
      (fun p => getAttr p.2 "itemprop" == some "price")).all
      (fun p => p.1.any (fun a => hasAttr a "itemscope")) = true ∧
    ((strictDescs
        (Node.elem "div" [("itemscope", ""), ("itemtype", "https://schema.org/Product")]
          [Node.elem "span" [("itemprop", "name")] [Node.text "P"],
           Node.elem "div"
             [("itemscope", ""), ("itemtype", "https://schema.org/Offer"),
              ("itemprop", "offers")]
             [Node.elem "span" [("itemprop", "price")] [Node.text "19.99"]]])).filter
      (fun p => getAttr p.2 "itemprop" == some "price")).length = 1 := by
  refine ⟨rfl, rfl, rfl⟩

/-- Once the entry is an array, later values push onto it. -/
theorem mergeVals_arr_acc :
    ∀ (vs a : List Json), mergeVals (some (.arr a)) vs = some (.arr (a ++ vs)) := by
  intro vs
  induction vs with
  | nil => intro a; simp [mergeVals]
  | cons v rest ih =>
    intro a
    rw [mergeVals, ih]
    simp

/-- Two or more merged values (the first not itself an array) produce
exactly the array of all values in order. -/
theorem mergeVals_none_two (v1 v2 : Json) (rest : List Json)
    (h1 : ∀ a, v1 ≠ .arr a) :
    mergeVals none (v1 :: v2 :: rest) = some (.arr (v1 :: v2 :: rest)) := by
  show mergeVals (some v1) (v2 :: rest) = _
  cases v1 with
  | arr a => exact absurd rfl (h1 a)
  | null => simp [mergeVals, mergeVals_arr_acc]
  | bool b => simp [mergeVals, mergeVals_arr_acc]
  | num n => simp [mergeVals, mergeVals_arr_acc]
  | numF q => simp [mergeVals, mergeVals_arr_acc]
  | str s => simp [mergeVals, mergeVals_arr_acc]
  | obj f => simp [mergeVals, mergeVals_arr_acc]

/-- A property value is never a top-level JSON array: nested items give
objects, everything else gives strings. -/
theorem itemPropValue_not_arr (d : Node) : ∀ a, itemPropValue d ≠ .arr a := by
  intro a
  unfold itemPropValue
  split
  · rw [extract_item]
    simp
  · simp

/-- Every accumulated value comes from `itemPropValue`. -/
theorem loopVals_not_arr (eid : Option String) (k : String)
    (l : List (List Node × Node)) :
    ∀ v ∈ loopVals eid k l, ∀ a, v ≠ Json.arr a := by
  intro v hv a
  simp only [loopVals, List.mem_filterMap] at hv
  obtain ⟨p, hp, hcond⟩ := hv
  split at hcond
  · exact absurd hcond (by simp)
  · split at hcond
    · injection hcond with hcond
      subst hcond
      exact itemPropValue_not_arr p.2 a
    · exact absurd hcond (by simp)

/-- Claim C2 (amended): in the standalone microdata extractor, when the
same `itemprop` name (other than `@type` / `@id`) occurs on two or more
descendants kept by the id-attribute ancestor walk — in an item without
an `id` attribute that is every `[itemprop]` descendant, nested scopes
included — the item stores the property as the array of all their
values in document order. -/
theorem spec_c2_microdata_list (e : Node) (k : String)
    (hk1 : k ≠ "@type") (hk2 : k ≠ "@id") (vs : List Json)
    (hvs : vs =
      loopVals (getAttr e "id") k
        ((strictDescs e).filter (fun p => hasAttr p.2 "itemprop")))
    (hlen : 2 ≤ vs.length) :
    Json.getKey (extract_item e) k = some (Json.arr vs) := by
  rw [extract_item_getKey e k hk1 hk2, ← hvs]
  match vs, hlen with
  | v1 :: v2 :: rest, _ =>
      exact mergeVals_none_two v1 v2 rest
        (loopVals_not_arr (getAttr e "id") k _ v1 (by rw [← hvs]; simp))

/-- Witness for the amended C2: two `span[itemprop=name]` children of
one scope accumulate into `["A","B"]`. -/
theorem spec_c2_microdata_list_witness :
    Json.getKey
      (extract_item
        (Node.elem "div" [("itemscope", ""), ("itemtype", "https://schema.org/Thing")]
          [Node.elem "span" [("itemprop", "name")] [Node.text "A"],
           Node.elem "span" [("itemprop", "name")] [Node.text "B"]]))
      "name" = some (Json.arr [Json.str "A", Json.str "B"]) := by
  refine
    spec_c2_microdata_list
      (Node.elem "div" [("itemscope", ""), ("itemtype", "https://schema.org/Thing")]
        [Node.elem "span" [("itemprop", "name")] [Node.text "A"],
         Node.elem "span" [("itemprop", "name")] [Node.text "B"]])
      "name" (by decide) (by decide) [Json.str "A", Json.str "B"] ?_ (by decide)
  rfl

/-- Claim C2 counterexample: the spec-engine microdata index
(extractors.rs `extract_microdata`) keeps only the last of two repeated
`itemprop="name"` values — `props.insert` overwrites, so `name` is the
single string `"B"`, not the list `["A","B"]`. -/
theorem spec_c2_counterexample :
    alistGet
      (extract_microdata_engine
        [Node.elem "div" [("itemscope", ""), ("itemtype", "https://schema.org/Product")]
          [Node.elem "span" [("itemprop", "name")] [Node.text "A"],
           Node.elem "span" [("itemprop", "name")] [Node.text "B"]]])
      "Product" =
    some (Json.arr [Json.obj [("name", Json.str "B")]]) := by
  rfl

/-- A successful prefix strip decomposes the list. -/
theorem charsDropPre_eq (p : List Char) :
    ∀ s r, charsDropPre p s = some r → s = p ++ r := by
  induction p with
  | nil => intro s r h; simp [charsDropPre] at h; simp [h]
  | cons c cs ih =>
    intro s r h
    cases s with
    | nil => simp [charsDropPre] at h
    | cons c' s' =>
      simp only [charsDropPre] at h
      split at h
      · rename_i hc
        subst hc
        simp [ih s' r h]
      · exact absurd h (by simp)

/-- Splitting at the first occurrence, when the head part is
colon-free. -/
theorem splitAtChar_headSeg (ch : Char) (pre : List Char) :
    ∀ rest, ch ∉ pre → splitAtChar ch (pre ++ ch :: rest) = some (pre, rest) := by
  induction pre with
  | nil => intro rest h; simp [splitAtChar]
  | cons c cs ih =>
    intro rest h
    simp only [List.cons_append, splitAtChar]
    rw [if_neg (by rintro rfl; exact h (List.mem_cons_self _ _))]
    show Option.map (fun p => (c :: p.1, p.2)) (splitAtChar ch (cs ++ ch :: rest)) = _
    rw [ih rest (fun hm => h (List.mem_cons_of_mem _ hm))]
    rfl

/-- Lookup after `alistSet` under the set key. -/
theorem alistGet_alistSet_eq {α : Type} (m : List (String × α)) (k : String)
    (v : α) : alistGet (alistSet m k v) k = some v := by
  induction m with
  | nil => simp [alistSet, alistGet]
  | cons q rest ih =>
    obtain ⟨k', v'⟩ := q
    simp only [alistSet]
    split
    · rename_i hk
      simp [alistGet, hk]
    · simp only [alistGet]
      split
      · rename_i h1 h2
        exact absurd h2 h1
      · exact ih

/-- Lookup of other keys is unchanged by `alistSet`. -/
theorem alistGet_alistSet_ne {α : Type} (m : List (String × α)) (k k' : String)
    (v : α) (h : k ≠ k') :
    alistGet (alistSet m k v) k' = alistGet m k' := by
  induction m with
  | nil => simp [alistSet, alistGet, h]
  | cons q rest ih =>
    obtain ⟨k0, v0⟩ := q
    simp only [alistSet]
    split
    · rename_i hk
      subst hk
      simp [alistGet, h]
    · simp only [alistGet]
      split
      · rfl
      · exact ih

/-- Does an (og-stripped) key touch the `image` entry of the `og`
group? — the simple key `image` or a structured `image:...` key. -/
def touchesImage (k : String) : Bool :=
  match splitAtChar ':' k.toList with
  | some (mainCs, _) => mainCs.asString = "image"
  | none => k = "image"

/-- The effect of `insert_value` on the `image` entry: simple keys
accumulate scalar → array → push; structured `image:sub` keys build or
extend the nested object (`_value` preserving a scalar); an existing
array is left unchanged by a structured key. -/
def ogImageUpd (prev : Option Json) (pair : String × String) : Option Json :=
  match splitAtChar ':' pair.1.toList with
  | some (_, subCs) =>
      let subKey := subCs.asString
      let nested :=
        match prev with
        | some v => v
        | none => Json.obj []
      match nested with
      | .obj nm => some (.obj (insertOverwrite nm subKey (.str pair.2)))
      | .str existing =>
          some (.obj [("_value", .str existing), (subKey, .str pair.2)])
      | other => some other
  | none =>
      match prev with
      | some (.arr a) => some (.arr (a ++ [.str pair.2]))
      | some w => some (.arr [w, .str pair.2])
      | none => some (.str pair.2)

/-- `insert_value`'s effect on the `image` lookup. -/
theorem og_insert_value_image (m : List (String × Json)) (key value : String) :
    alistGet (og_insert_value m key value) "image" =
      if touchesImage key then ogImageUpd (alistGet m "image") (key, value)
      else alistGet m "image" := by
  unfold og_insert_value touchesImage ogImageUpd
  cases hsplit : splitAtChar ':' key.toList with
  | some p =>
    obtain ⟨mainCs, subCs⟩ := p
    simp only [hsplit]
    by_cases hmain : mainCs.asString = "image"
    · rw [if_pos (by simp [hmain])]
      rw [hmain, alistGet_alistSet_eq]
      cases hg : alistGet m "image" with
      | none => rfl
      | some w => cases w <;> rfl
    · rw [if_neg (by simp [hmain])]
      exact alistGet_alistSet_ne _ _ _ _ hmain
  | none =>
    simp only [hsplit]
    by_cases hkey : key = "image"
    · subst hkey
      cases hg : alistGet m "image" with
      | none =>
        simp [hg, alistGet_append, alistGet]
      | some w =>
        simp only [hg, Option.isSome_some, if_true]
        rw [alistGet_alistModify_eq, hg]
        cases w <;> simp
    · cases hg : alistGet m key with
      | none =>
        simp only [hg, Option.isSome_none, Bool.false_eq_true, if_false]
        rw [alistGet_append]
        simp [alistGet, hkey]
        cases alistGet m "image" <;> rfl
      | some w =>
        simp [hg, alistGet_alistModify_ne _ _ _ _ hkey, hkey]

/-- `dropPre` succeeds exactly on prefixes. -/
theorem dropPre_isSome_iff (p s : String) :
    (dropPre p s).isSome = startsWithStr p s := by
  unfold dropPre startsWithStr
  cases charsDropPre p.toList s.toList <;> simp

/-- A key under a non-`image` colon-ended prefix never touches the
`image` entry. -/
theorem touchesImage_prefix_ne (pre : List Char) (p : String) (r : List Char)
    (hd : p.toList = pre ++ ':' :: r) (hpre : ':' ∉ pre)
    (hne : pre.asString ≠ "image") : touchesImage p = false := by
  unfold touchesImage
  rw [hd, splitAtChar_headSeg ':' pre r hpre]
  simp [hne]

/-- Which `(stripped key, content)` pair, if any, a `meta` element
contributes to the `image` entry of the `og` group. -/
def metaTouch (el : Node) : Option (String × String) :=
  let content := (getAttr el "content").getD ""
  if content = "" then none
  else
    match getAttr el "property" with
    | some prop =>
        if startsWithStr "og:" prop then
          match dropPre "og:" prop with
          | some k => if touchesImage k then some (k, content) else none
          | none => none
        else none
    | none => none

/-- One `og_step` changes the `image` entry of the `og` map exactly by
the element's `metaTouch` contribution. -/
theorem og_step_image
    (st : List (String × Json) × List (String × Json) × List (String × Json))
    (el : Node) :
    alistGet (og_step st el).1 "image" =
      match metaTouch el with
      | some pair => ogImageUpd (alistGet st.1 "image") pair
      | none => alistGet st.1 "image" := by
  unfold og_step metaTouch
  by_cases hc : (getAttr el "content").getD "" = ""
  · simp [hc]
  · simp only [hc, if_neg, if_false]
    cases hprop : getAttr el "property" with
    | none => simp
    | some prop =>
      by_cases hog : startsWithStr "og:" prop = true
      · simp only [hog, if_true]
        cases hdrop : dropPre "og:" prop with
        | none =>
          exfalso
          have := dropPre_isSome_iff "og:" prop
          rw [hdrop, hog] at this
          simp at this
        | some k =>
          rw [og_insert_value_image]
          by_cases ht : touchesImage k = true
          · simp [ht]
          · simp only [Bool.not_eq_true] at ht
            simp [ht]
      · simp only [Bool.not_eq_true] at hog
        simp only [hog, Bool.false_eq_true, if_false]
        by_cases hart : (startsWithStr "article:" prop || startsWithStr "product:" prop) = true
        · simp only [hart, if_true]
          rw [og_insert_value_image]
          have htouch : touchesImage prop = false := by
            rcases Bool.or_eq_true_iff.mp hart with h1 | h1
            · unfold startsWithStr at h1
              obtain ⟨r, hr⟩ := Option.isSome_iff_exists.mp h1
              have h2 := charsDropPre_eq _ _ _ hr
              have hlist : prop.toList = "article".toList ++ ':' :: r := by
                rw [h2]
                have h3 : ("article:".toList) = "article".toList ++ [':'] := by
                  decide
                rw [h3, List.append_assoc]
                rfl
              exact touchesImage_prefix_ne _ _ _ hlist (by decide) (by decide)
            · unfold startsWithStr at h1
              obtain ⟨r, hr⟩ := Option.isSome_iff_exists.mp h1
              have h2 := charsDropPre_eq _ _ _ hr
              have hlist : prop.toList = "product".toList ++ ':' :: r := by
                rw [h2]
                have h3 : ("product:".toList) = "product".toList ++ [':'] := by
                  decide
                rw [h3, List.append_assoc]
                rfl
              exact touchesImage_prefix_ne _ _ _ hlist (by decide) (by decide)
          rw [htouch]
          simp
        · simp only [Bool.not_eq_true] at hart
          simp [hart]

/-- The whole `meta` fold computes, on the `image` entry, the replay of
the elements' `metaTouch` contributions in document order. -/
theorem og_fold_image (metas : List Node) :
    ∀ st, alistGet (metas.foldl og_step st).1 "image" =
      (metas.filterMap metaTouch).foldl ogImageUpd (alistGet st.1 "image") := by
  induction metas with
  | nil => intro st; simp
  | cons el rest ih =>
    intro st
    simp only [List.foldl_cons, List.filterMap_cons]
    rw [ih]
    cases ht : metaTouch el with
    | none =>
      rw [og_step_image, ht]
    | some pair =>
      rw [og_step_image, ht]
      simp

/-- Claim C5 (amended): in the standalone OpenGraph extractor
(opengraph_extractor.rs), a document whose only `image`-touching metas
are two simple `og:image` tags with contents `A` then `B` yields
`og.image = ["A","B"]` — repeated simple keys collapse to a list in
document order. -/
theorem spec_c5_og_image_list (doc : List Node) (A B : String)
    (htouch : (metaElems doc).filterMap metaTouch = [("image", A), ("image", B)]) :
    ∃ ogMap, Json.getKey (extract_opengraph_standalone doc) "og" =
        some (.obj ogMap) ∧
      alistGet ogMap "image" = some (.arr [.str A, .str B]) := by
  have himg :
      alistGet ((metaElems doc).foldl og_step ([], [], [])).1 "image" =
        some (.arr [.str A, .str B]) := by
    rw [og_fold_image, htouch]
    rfl
  have hne : ((metaElems doc).foldl og_step ([], [], [])).1 ≠ [] := by
    intro h0
    rw [h0] at himg
    simp [alistGet] at himg
  refine ⟨((metaElems doc).foldl og_step ([], [], [])).1, ?_, himg⟩
  simp only [extract_opengraph_standalone]
  rw [getKey_obj]
  rw [if_neg (by simp [hne])]
  simp [alistGet]

/-- Witness for the amended C5 at a concrete document with
`og:image` contents `A` then `B`. -/
theorem spec_c5_og_image_list_witness :
    ∃ ogMap, Json.getKey
        (extract_opengraph_standalone
          [Node.elem "meta" [("property", "og:image"), ("content", "A")] [],
           Node.elem "meta" [("property", "og:image"), ("content", "B")] []])
        "og" = some (.obj ogMap) ∧
      alistGet ogMap "image" = some (.arr [.str "A", .str "B"]) := by
  refine
    spec_c5_og_image_list
      [Node.elem "meta" [("property", "og:image"), ("content", "A")] [],
       Node.elem "meta" [("property", "og:image"), ("content", "B")] []]
      "A" "B" ?_
  rfl

/-- Claim C5 counterexample: the spec-engine OpenGraph index
(extractors.rs `extract_opengraph`) keeps only the last repeated value:
two `og:image` metas with contents `A` then `B` leave `image = "B"` —
a single string, not the list `["A","B"]`. -/
theorem spec_c5_counterexample :
    alistGet
      (extract_opengraph_engine
        [Node.elem "meta" [("property", "og:image"), ("content", "A")] [],
         Node.elem "meta" [("property", "og:image"), ("content", "B")] []])
      "image" = some "B" := by
  rfl

/-- One unreducible `key: value` property fails the whole object loop,
whatever the accumulator. -/
theorem objectProps_none (parse : String → Option Json) (props : List JProp)
    (h : ∃ key value, JProp.keyValue key value ∈ props ∧
      expr_to_json parse value = none) :
    ∀ acc, objectProps parse acc props = none := by
  induction props with
  | nil => obtain ⟨k, v, hm, _⟩ := h; simp at hm
  | cons p rest ih =>
    intro acc
    obtain ⟨k, v, hm, hv⟩ := h
    cases p with
    | spreadProp e =>
      rw [objectProps]
      exact ih ⟨k, v, by simpa using hm, hv⟩ acc
    | otherProp =>
      rw [objectProps]
      exact ih ⟨k, v, by simpa using hm, hv⟩ acc
    | keyValue key value =>
      rw [objectProps]
      rcases List.mem_cons.mp hm with hhead | htail
      · injection hhead with h1 h2
        subst h1
        subst h2
        cases prop_name_to_string k with
        | none => rfl
        | some ks => rw [hv]
      · cases prop_name_to_string key with
        | none => rfl
        | some ks =>
          cases hev : expr_to_json parse value with
          | none => rfl
          | some v' => exact ih ⟨k, v, htail, hv⟩ _

/-- When every `key: value` property reduces, the loop succeeds. -/
theorem objectProps_some (parse : String → Option Json) (props : List JProp)
    (h : ∀ key value, JProp.keyValue key value ∈ props →
      (prop_name_to_string key).isSome = true ∧
      (expr_to_json parse value).isSome = true) :
    ∀ acc, ∃ fields, objectProps parse acc props = some fields := by
  induction props with
  | nil => intro acc; exact ⟨acc, rfl⟩
  | cons p rest ih =>
    intro acc
    cases p with
    | spreadProp e =>
      rw [objectProps]
      exact ih (fun k v hm => h k v (by simpa using hm)) acc
    | otherProp =>
      rw [objectProps]
      exact ih (fun k v hm => h k v (by simpa using hm)) acc
    | keyValue key value =>
      rw [objectProps]
      obtain ⟨hk, hv⟩ := h key value (List.mem_cons_self _ _)
      obtain ⟨ks, hks⟩ := Option.isSome_iff_exists.mp hk
      obtain ⟨v', hv'⟩ := Option.isSome_iff_exists.mp hv
      rw [hks, hv']
      exact ih (fun k v hm => h k v (List.mem_cons_of_mem _ hm)) _

/-- Claim C3 (amended): an unreducible `key: value` property value
makes the whole object literal unreducible (the `?` operator aborts
`expr_to_json`, so the binding is dropped); only when every
`key: value` property reduces does the evaluator yield an object
(spread and non-key-value properties being silently dropped). -/
theorem spec_c3_object_drop (parse : String → Option Json)
    (props : List JProp) :
    ((∃ key value, JProp.keyValue key value ∈ props ∧
        expr_to_json parse value = none) →
      expr_to_json parse (.object props) = none) ∧
    ((∀ key value, JProp.keyValue key value ∈ props →
        (prop_name_to_string key).isSome = true ∧
        (expr_to_json parse value).isSome = true) →
      ∃ fields, expr_to_json parse (.object props) = some (.obj fields)) := by
  constructor
  · intro h
    rw [expr_to_json]
    rw [objectProps_none parse props h []]
  · intro h
    rw [expr_to_json]
    obtain ⟨fields, hf⟩ := objectProps_some parse props h []
    rw [hf]
    exact ⟨fields, rfl⟩

/-- Witness for the amended C3: `a: "x"` beside an unreducible
identifier reference kills the whole object, and the same object
without it reduces. -/
theorem spec_c3_object_drop_witness :
    expr_to_json (fun _ => none)
      (.object [.keyValue (.identName "a") (.litStr "x"),
                .keyValue (.identName "b") (.identRef "foo")]) = none ∧
    ∃ fields, expr_to_json (fun _ => none)
      (.object [.keyValue (.identName "a") (.litStr "x")]) =
        some (.obj fields) := by
  constructor
  · exact
      (spec_c3_object_drop (fun _ => none)
        [.keyValue (.identName "a") (.litStr "x"),
         .keyValue (.identName "b") (.identRef "foo")]).1
        ⟨.identName "b", .identRef "foo", by simp, rfl⟩
  · refine
      (spec_c3_object_drop (fun _ => none)
        [.keyValue (.identName "a") (.litStr "x")]).2 ?_
    intro key value hm
    rcases List.mem_singleton.mp hm with h
    injection h with h1 h2
    subst h1
    subst h2
    exact ⟨rfl, rfl⟩

/-- Claim C3 counterexample: a top-level binding whose object literal
has one reducible property (`a: "x"`) and one unreducible property
(`b: foo`) yields no value at all — the whole binding is dropped, not
just the bad property (the claim expects the object `("a": "x")`). -/
theorem spec_c3_counterexample :
    expr_to_json (fun _ => none)
      (.object [.keyValue (.identName "a") (.litStr "x"),
                .keyValue (.identName "b") (.identRef "foo")]) ≠
      some (.obj [("a", .str "x")]) ∧
    extract_vars_from_stmt (fun _ => none)
      (.varDecl [(.identPat "x",
        some (.object [.keyValue (.identName "a") (.litStr "x"),
                       .keyValue (.identName "b") (.identRef "foo")]))])
      [] = [] := by
  constructor
  · intro h
    rw [show expr_to_json (fun _ => none)
        (.object [.keyValue (.identName "a") (.litStr "x"),
                  .keyValue (.identName "b") (.identRef "foo")]) = none from rfl] at h
    exact Option.noConfusion h
  · rfl

/-- Concrete stand-in for `str::parse::<f64>` on plain decimal
numerals (sign, digits, optional fraction) — the oracle instance used
by the concrete inputs below; every such numeral is parsed by `f64`
identically (exactly, at these short lengths). -/
def decimalParse (s : String) : Option Rat :=
  let cs := s.toList
  let signAndDigits :=
    match cs with
    | '-' :: t => (true, t)
    | '+' :: t => (false, t)
    | l => (false, l)
  let neg := signAndDigits.1
  let cs1 := signAndDigits.2
  match splitAtChar '.' cs1 with
  | none =>
      if cs1 ≠ [] ∧ cs1.all (fun c => c.isDigit) then
        let n : Nat := cs1.foldl (fun n c => n * 10 + (c.toNat - 48)) 0
        some (if neg then -(n : Rat) else (n : Rat))
      else none
  | some p =>
      let ip := p.1
      let fp := p.2
      if ip ≠ [] ∧ fp ≠ [] ∧ ip.all (fun c => c.isDigit) ∧
          fp.all (fun c => c.isDigit) then
        let ipn : Nat := ip.foldl (fun n c => n * 10 + (c.toNat - 48)) 0
        let fpn : Nat := fp.foldl (fun n c => n * 10 + (c.toNat - 48)) 0
        let q : Rat := (ipn : Rat) + (fpn : Rat) / ((10 : Rat) ^ fp.length)
        some (if neg then -q else q)
      else none

/-- Claim C6, evaluated at the failing input: for robots text whose
only `Crawl-delay` sits in the `OtherBot` section, with user agent
`mybot` — which does not match that section, and the text has no `*`
section — `extract_crawl_delay` still returns that delay (10), where
the claim requires no delay at all.  The section token `otherbot` is
neither `*` nor a substring of the agent. -/
theorem spec_c6_crawl_delay_bug :
    extract_crawl_delay decimalParse
      "User-agent: OtherBot\nCrawl-delay: 10" "mybot" = some 10 ∧
    containsSub "mybot" "otherbot" = false ∧ ("otherbot" ≠ "*") := by
  refine ⟨by decide, by decide, by decide⟩

/-- Children fetched beyond the depth bound contribute nothing: each
recursive call returns the empty result. -/
theorem fetchChildren_sitemaps_empty (fetch : String → FetchOutcome)
    (parseNum : String → Option Rat) (recursive : Bool) (md d : Nat)
    (hd : d > md) :
    ∀ (l : List SitemapIndexEntry) (acc : SitemapResult),
      (fetchChildren fetch parseNum recursive md d l acc).sitemaps =
        acc.sitemaps := by
  intro l
  induction l with
  | nil => intro acc; rw [fetchChildren]
  | cons entry rest ih =>
    intro acc
    rw [fetchChildren]
    have hchild :
        fetch_sitemap_internal fetch parseNum entry.url recursive md d =
          ⟨[], [], []⟩ := by
      rw [fetch_sitemap_internal]
      rw [dif_pos hd]
    rw [hchild, ih]
    simp

/-- Claim C7 (amended): with recursion enabled, a fetch at the last
allowed depth returns no residual `sitemaps` at all — child references
beyond the bound are dropped, not returned. -/
theorem spec_c7_residual_dropped (fetch : String → FetchOutcome)
    (parseNum : String → Option Rat) (url : String) (md : Nat) :
    (fetch_sitemap_internal fetch parseNum url true md md).sitemaps = [] := by
  rw [fetch_sitemap_internal]
  split
  · rfl
  · cases hf : fetch url with
    | callFail e => rfl
    | httpFail status => rfl
    | readFail e => rfl
    | success events =>
      simp only []
      split
      · rename_i hne
        rw [fetchChildren_sitemaps_empty fetch parseNum true md (md + 1)
          (by omega)]
      · rename_i hne
        simp only [Bool.true_and, Bool.not_eq_true] at hne
        have : (parse_sitemap parseNum events).sitemaps = [] := by
          have h2 := hne
          simp at h2
          exact h2
        simp [this]

/-- Concrete fetch oracle for the depth-bound scenario: the root URL is
a sitemap index pointing at two child urlsets `c1`, `c2`; every other
URL is a urlset with one page. -/
def c7FetchOracle : String → FetchOutcome := fun url =>
  if url = "root" then
    .success
      [.start "sitemapindex",
       .start "sitemap", .start "loc", .text "c1", .endTag "loc",
       .endTag "sitemap",
       .start "sitemap", .start "loc", .text "c2", .endTag "loc",
       .endTag "sitemap",
       .endTag "sitemapindex", .eof]
  else
    .success
      [.start "urlset", .start "url", .start "loc", .text (url ++ "/a"),
       .endTag "loc", .endTag "url", .endTag "urlset", .eof]

/-- Claim C7 counterexample: fetching the sitemap index above with
`recursive = true` and `max_depth = 0` returns empty `urls` AND empty
`sitemaps` — the two child references are dropped, not returned as
residual `sitemaps` as the claim requires. -/
theorem spec_c7_counterexample :
    fetch_sitemap_internal c7FetchOracle decimalParse "root" true 0 0 =
      ⟨[], [], []⟩ := by
  have hchild : ∀ u, fetch_sitemap_internal c7FetchOracle decimalParse u true 0 1 =
      ⟨[], [], []⟩ := by
    intro u
    rw [fetch_sitemap_internal]
    rw [dif_pos (by omega)]
  rw [fetch_sitemap_internal]
  rw [dif_neg (by omega)]
  have hf : c7FetchOracle "root" = FetchOutcome.success
      [.start "sitemapindex",
       .start "sitemap", .start "loc", .text "c1", .endTag "loc",
       .endTag "sitemap",
       .start "sitemap", .start "loc", .text "c2", .endTag "loc",
       .endTag "sitemap",
       .endTag "sitemapindex", .eof] := rfl
  rw [hf]
  have hp : parse_sitemap decimalParse
      [.start "sitemapindex",
       .start "sitemap", .start "loc", .text "c1", .endTag "loc",
       .endTag "sitemap",
       .start "sitemap", .start "loc", .text "c2", .endTag "loc",
       .endTag "sitemap",
       .endTag "sitemapindex", .eof] =
      ⟨[], [⟨"c1", none⟩, ⟨"c2", none⟩], []⟩ := rfl
  simp only [hp]
  rw [fetchChildren, fetchChildren, fetchChildren]
  simp [hchild]

/-- Claim C8 (amended): within one `RobotsCache` instance the TTL
property holds — when the host's cache entry is younger than 3600 s,
`check_blocking` issues no HTTP request, leaves the cache unchanged and
re-evaluates the stored raw text (`check_cached`). -/
theorem spec_c8_cache_ttl (lib : RobotsLib) (fetch : String → Option String)
    (cache : List (String × CachedRobots)) (scheme host url user_agent : String)
    (cached : CachedRobots) (now : Nat)
    (hc : alistGet cache (lowerStr host) = some cached)
    (hfresh : now - cached.fetched_at < 3600) :
    check_blocking lib fetch cache (some (scheme, some host)) url user_agent now =
      (check_cached lib cached url user_agent, cache, false) := by
  simp only [check_blocking, hc]
  rw [if_pos hfresh]

/-- Witness for the amended C8: a warm cache entry 1000 s old is used
without any fetch. -/
theorem spec_c8_cache_ttl_witness :
    check_blocking ⟨decimalParse, fun _ _ _ => none⟩ (fun _ => some "")
      [("example.com", ⟨"", none, [], 0⟩)]
      (some ("https", some "Example.COM")) "https://example.com/x" "ua" 1000 =
      (check_cached ⟨decimalParse, fun _ _ _ => none⟩ ⟨"", none, [], 0⟩
        "https://example.com/x" "ua",
       [("example.com", ⟨"", none, [], 0⟩)], false) := by
  exact
    spec_c8_cache_ttl ⟨decimalParse, fun _ _ _ => none⟩ (fun _ => some "")
      [("example.com", ⟨"", none, [], 0⟩)] "https" "Example.COM"
      "https://example.com/x" "ua" ⟨"", none, [], 0⟩ 1000 (by rfl) (by decide)

/-- Claim C8 counterexample: the FFI entry point
(`check_robots_ffi_inner`) constructs a fresh empty `RobotsCache` on
every call, so two robots checks for the same host only 1 s apart each
issue an HTTP request — the third component records that a fetch
happened in both calls, violating the no-second-request-within-3600 s
claim. -/
theorem spec_c8_counterexample :
    (check_robots_ffi_inner ⟨decimalParse, fun _ _ _ => none⟩ (fun _ => some "")
      (some ("https", some "example.com")) "https://example.com/x" "ua" 0).2.2
      = true ∧
    (check_robots_ffi_inner ⟨decimalParse, fun _ _ _ => none⟩ (fun _ => some "")
      (some ("https", some "example.com")) "https://example.com/x" "ua" 1).2.2
      = true ∧
    1 - 0 < 3600 := by
  refine ⟨rfl, rfl, by decide⟩
